import Mathlib

/-!
Verification of the WAVM serialization primitives (src/Include/Core/Serialization.h)
and the LLVMJIT loader (src/Lib/LLVMJIT/LLVMJITLoad.cpp).

Machine integers are modelled as Nat (unsigned) or Int (signed) with explicit
truncation `% 2 ^ W` at the operations where the C++ code can wrap. Fallible
code (code that throws FatalSerializationException, or calls Errors::fatal)
is modelled with Except / Option.
-/

deriving instance DecidableEq for Except

set_option maxRecDepth 4000

/-! ## Byte streams (Serialization.h) -/

/-- Message thrown by MemoryInputStream.getMoreData (Serialization.h line 123). -/
def endOfStreamMsg : String := "expected data but found end of stream"

/-- MemoryInputStream (Serialization.h lines 118-124): an input stream over a
contiguous range of memory, modelled as the full byte range plus the number of
bytes already consumed. The cursor `next` is the index `consumed`; `end` is the
length of `full`. -/
structure MemoryInputStream where
  full : List Nat
  consumed : Nat
deriving DecidableEq

/-- InputStream.advance (Serialization.h lines 91-97) specialised to
MemoryInputStream: when fewer than numBytes bytes remain, getMoreData throws
FatalSerializationException (line 123); otherwise it returns the previous
cursor (modelled as an index into `full`) and moves the cursor forward by
numBytes. -/
def MemoryInputStream.advance (s : MemoryInputStream) (numBytes : Nat) :
    Except String (Nat × MemoryInputStream) :=
  if s.consumed + numBytes > s.full.length then .error endOfStreamMsg
  else .ok (s.consumed, ⟨s.full, s.consumed + numBytes⟩)

/-- InputStream.peek (Serialization.h lines 100-104) specialised to
MemoryInputStream: returns the current cursor without consuming anything,
after checking that at least numBytes bytes follow it. -/
def MemoryInputStream.peek (s : MemoryInputStream) (numBytes : Nat) :
    Except String Nat :=
  if s.consumed + numBytes > s.full.length then .error endOfStreamMsg
  else .ok s.consumed

/-! ## LEB128 variable-length integers (Serialization.h lines 145-214) -/

/-- Out-of-range message (Serialization.h lines 153 and 205) for an unsigned
Value: std::to_string on unsigned integers prints the decimal digits, which is
toString on Nat. -/
def outOfRangeMsgU (minValue value maxValue : Nat) : String :=
  "out-of-range value: " ++ toString minValue ++ "<=" ++ toString value ++ "<="
    ++ toString maxValue

/-- Out-of-range message (Serialization.h lines 153 and 205) for a signed
Value: std::to_string on signed integers agrees with toString on Int. -/
def outOfRangeMsg (minValue value maxValue : Int) : String :=
  "out-of-range value: " ++ toString minValue ++ "<=" ++ toString value ++ "<="
    ++ toString maxValue

/-- Encoding loop of serializeVarInt, OutputStream overload (Serialization.h
lines 156-166), instantiated at an unsigned Value. `value & 127` is `&&& 127`,
`value >>= 7` is a logical shift, and the loop continues while the shifted
value is nonzero. Each emitted byte is below 256. -/
def encodeVarUInt (value : Nat) : List Nat :=
  if value >>> 7 ≠ 0 then ((value &&& 127) ||| 128) :: encodeVarUInt (value >>> 7)
  else [value &&& 127]
termination_by value
decreasing_by
  rw [Nat.shiftRight_eq_div_pow] at *
  omega

/-- Bit 6 of a byte below 128 is set exactly when the byte is at least 64. -/
theorem and64_iff : ∀ b < 128, ((b : Nat) &&& 64 ≠ 0 ↔ 64 ≤ b) := by decide

/-- Encoding loop of serializeVarInt, OutputStream overload (Serialization.h
lines 156-166), instantiated at a signed Value. On a twos-complement machine
integer, `(uint8)(value & 127)` is the non-negative residue `value % 128`
(Int.emod), and `value >>= 7` is an arithmetic shift, i.e. floor division by
128 (Int division in Lean is Int.ediv, which is floor division for a positive
divisor). The loop continues while the condition of line 161-162 holds. -/
def encodeVarSInt (value : Int) : List Nat :=
  if h : (value / 128 ≠ 0 ∧ value / 128 ≠ -1)
      ∨ (0 ≤ value / 128 ∧ (value % 128).toNat &&& 64 ≠ 0)
      ∨ (value / 128 < 0 ∧ (value % 128).toNat &&& 64 = 0) then
    ((value % 128).toNat ||| 128) :: encodeVarSInt (value / 128)
  else [(value % 128).toNat]
termination_by value.natAbs
decreasing_by
  have hd := Int.ediv_add_emod value 128
  have h0 : (0 : Int) ≤ value % 128 := Int.emod_nonneg value (by omega)
  have h1 : value % 128 < 128 := Int.emod_lt_of_pos value (by omega)
  have h2 := and64_iff (value % 128).toNat (by omega)
  rcases h with ⟨h3, h4⟩ | ⟨h3, h4⟩ | ⟨h3, h4⟩
  · omega
  · rw [h2] at h4; omega
  · have h5 : ¬64 ≤ (value % 128).toNat := fun hc => h2.mpr hc h4
    omega

/-- Range check plus encoding loop of serializeVarInt, OutputStream overload
(Serialization.h lines 147-167), unsigned Value. The check on lines 151-154
throws before any byte is written; on success the emitted bytes are returned. -/
def serializeVarUIntOut (minValue maxValue value : Nat) :
    Except String (List Nat) :=
  if value < minValue ∨ value > maxValue then
    .error (outOfRangeMsgU minValue value maxValue)
  else .ok (encodeVarUInt value)

/-- Range check plus encoding loop of serializeVarInt, OutputStream overload
(Serialization.h lines 147-167), signed Value. -/
def serializeVarSIntOut (minValue maxValue value : Int) :
    Except String (List Nat) :=
  if value < minValue ∨ value > maxValue then
    .error (outOfRangeMsg minValue value maxValue)
  else .ok (encodeVarSInt value)

/-- Byte-reading loop of serializeVarInt, InputStream overload (Serialization.h
lines 175-184): read up to maxBytes bytes, stopping after the first byte whose
continuation bit 0x80 is clear; reading past the end of the stream throws
(line 123). Returns the bytes read and the unconsumed remainder of the
stream. -/
def readVarIntBytes : Nat → List Nat → Except String (List Nat × List Nat)
  | 0, input => .ok ([], input)
  | _ + 1, [] => .error endOfStreamMsg
  | n + 1, b :: input =>
    if b &&& 128 ≠ 0 then
      match readVarIntBytes n input with
      | .error e => .error e
      | .ok (bs, rest) => .ok (b :: bs, rest)
    else .ok ([b], input)

/-- Accumulation loop of serializeVarInt, InputStream overload (Serialization.h
lines 195-197): `value |= Value(bytes[byteIndex] & ~0x80) << (byteIndex * 7)`.
Value is a W-bit machine integer, so each shifted term is truncated to W bits;
the bit pattern accumulated is the same for signed and unsigned Value. -/
def decodeAccum (W : Nat) : List Nat → Nat → Nat → Nat
  | [], _, value => value
  | b :: rest, i, value =>
    decodeAccum W rest (i + 1) (value ||| (((b &&& 127) <<< (7 * i)) % 2 ^ W))

/-- Reinterpretation of a W-bit pattern as a twos-complement signed integer. -/
def toSigned (W n : Nat) : Int := if n < 2 ^ (W - 1) then (n : Int) else (n : Int) - 2 ^ W

/-- Message thrown on a malformed final byte (Serialization.h line 192). -/
def invalidLEBMsg : String := "Invalid LEB encoding: invalid final byte"

/-- serializeVarInt, InputStream overload (Serialization.h lines 169-206),
instantiated at an unsigned Value of bit width W with template parameter
maxBits. The byte buffer is zero-initialised (line 174), so the final-byte
check of lines 186-192 examines `bytes[maxBytes-1]`, which is 0 unless exactly
maxBytes bytes were read; `~highestByteUsedBitmask` on a uint8 is
`255 - highestByteUsedBitmask`, and for an unsigned Value the signed
alternative of line 191 is unavailable. The decoded value and the unconsumed
remainder of the stream are returned. -/
def serializeVarUIntIn (W maxBits minValue maxValue : Nat) (input : List Nat) :
    Except String (Nat × List Nat) :=
  let maxBytes := (maxBits + 6) / 7
  match readVarIntBytes maxBytes input with
  | .error e => .error e
  | .ok (bytesRead, rest) =>
    let bytes := bytesRead ++ List.replicate (maxBytes - bytesRead.length) 0
    let numUsedBitsInHighestByte := maxBits - (maxBytes - 1) * 7
    let highestByteUsedBitmask := (1 <<< numUsedBitsInHighestByte) % 256 - 1
    if bytes.getD (maxBytes - 1) 0 &&& (255 - highestByteUsedBitmask) ≠ 0 then
      .error invalidLEBMsg
    else
      let value := decodeAccum W bytes 0 0
      if value < minValue ∨ value > maxValue then
        .error (outOfRangeMsgU minValue value maxValue)
      else .ok (value, rest)

/-- serializeVarInt, InputStream overload (Serialization.h lines 169-206),
instantiated at a signed Value of bit width W. The final byte may carry either
all-zero or all-one unused bits (lines 190-191). After accumulating the raw
W-bit pattern, line 200-201 sign-extends when signExtendShift =
W - 7 * numBytesRead is positive: the left shift wraps in W bits and the right
shift is arithmetic, i.e. floor division. -/
def serializeVarSIntIn (W maxBits : Nat) (minValue maxValue : Int)
    (input : List Nat) : Except String (Int × List Nat) :=
  let maxBytes := (maxBits + 6) / 7
  match readVarIntBytes maxBytes input with
  | .error e => .error e
  | .ok (bytesRead, rest) =>
    let bytes := bytesRead ++ List.replicate (maxBytes - bytesRead.length) 0
    let numUsedBitsInHighestByte := maxBits - (maxBytes - 1) * 7
    let highestByteUsedBitmask := (1 <<< numUsedBitsInHighestByte) % 256 - 1
    let highestByteSignedBitmask := (255 - highestByteUsedBitmask) &&& 127
    let highBits := bytes.getD (maxBytes - 1) 0 &&& (255 - highestByteUsedBitmask)
    if highBits ≠ 0 ∧ highBits ≠ highestByteSignedBitmask then
      .error invalidLEBMsg
    else
      let raw := decodeAccum W bytes 0 0
      let value :=
        if 7 * bytesRead.length < W then
          toSigned W ((raw <<< (W - 7 * bytesRead.length)) % 2 ^ W)
            / 2 ^ (W - 7 * bytesRead.length)
        else toSigned W raw
      if value < minValue ∨ value > maxValue then
        .error (outOfRangeMsg minValue value maxValue)
      else .ok (value, rest)

/-! The named helpers (Serialization.h lines 209-214). The Value type of each
helper is taken at the natural width of its range: 32 bits for
varuint1/varuint7/varuint32/varint32 and 64 bits for varuint64/varint64. -/

def serializeVarUInt1Out : Nat → Except String (List Nat) :=
  serializeVarUIntOut 0 1

def serializeVarUInt1In : List Nat → Except String (Nat × List Nat) :=
  serializeVarUIntIn 32 1 0 1

def serializeVarUInt7Out : Nat → Except String (List Nat) :=
  serializeVarUIntOut 0 127

def serializeVarUInt7In : List Nat → Except String (Nat × List Nat) :=
  serializeVarUIntIn 32 7 0 127

def serializeVarUInt32Out : Nat → Except String (List Nat) :=
  serializeVarUIntOut 0 (2 ^ 32 - 1)

def serializeVarUInt32In : List Nat → Except String (Nat × List Nat) :=
  serializeVarUIntIn 32 32 0 (2 ^ 32 - 1)

def serializeVarUInt64Out : Nat → Except String (List Nat) :=
  serializeVarUIntOut 0 (2 ^ 64 - 1)

def serializeVarUInt64In : List Nat → Except String (Nat × List Nat) :=
  serializeVarUIntIn 64 64 0 (2 ^ 64 - 1)

def serializeVarInt32Out : Int → Except String (List Nat) :=
  serializeVarSIntOut (-(2 ^ 31)) (2 ^ 31 - 1)

def serializeVarInt32In : List Nat → Except String (Int × List Nat) :=
  serializeVarSIntIn 32 32 (-(2 ^ 31)) (2 ^ 31 - 1)

def serializeVarInt64Out : Int → Except String (List Nat) :=
  serializeVarSIntOut (-(2 ^ 63)) (2 ^ 63 - 1)

def serializeVarInt64In : List Nat → Except String (Int × List Nat) :=
  serializeVarSIntIn 64 64 (-(2 ^ 63)) (2 ^ 63 - 1)

/-! ## Arithmetic facts about bytes and bit operations -/

theorem and127_eq_mod (x : Nat) : x &&& 127 = x % 128 :=
  Nat.and_pow_two_sub_one_eq_mod x 7

theorem lor128_and127 : ∀ x < 128, (x ||| 128) &&& 127 = x := by decide

theorem lt128_and127 : ∀ x < 128, x &&& 127 = x := by decide

theorem lor128_bounds : ∀ x < 128, 128 ≤ (x ||| 128) ∧ (x ||| 128) < 256 := by decide

theorem and128_eq_zero : ∀ x < 128, x &&& 128 = 0 := by decide

theorem and128_ne_zero : ∀ x < 256, 128 ≤ x → x &&& 128 ≠ 0 := by decide

/-- A value whose bits lie below k, ored with a multiple of 2 ^ k, is their
sum. -/
theorem two_pow_mul_lor_eq_add (k a b : Nat) (hb : b < 2 ^ k) :
    2 ^ k * a ||| b = 2 ^ k * a + b := by
  apply Nat.eq_of_testBit_eq
  intro i
  rw [Nat.testBit_lor, Nat.testBit_mul_pow_two_add a hb i]
  rcases lt_or_ge i k with h | h
  · have h2 : (2 ^ k * a).testBit i = false := by
      rw [mul_comm, ← Nat.shiftLeft_eq, Nat.testBit_shiftLeft]
      simp [Nat.not_le_of_lt h]
    simp [h2, h]
  · have h2 : b.testBit i = false :=
      Nat.testBit_lt_two_pow (lt_of_lt_of_le hb (Nat.pow_le_pow_right (by omega) h))
    have h3 : (2 ^ k * a).testBit i = a.testBit (i - k) := by
      rw [mul_comm, ← Nat.shiftLeft_eq, Nat.testBit_shiftLeft]
      simp [h]
    simp [h2, h3, Nat.not_lt_of_ge h]

/-- Mathematical value of a little-endian base-128 byte list: the 7-bit payload
groups combined in order of increasing significance. -/
def lebBytesValue : List Nat → Nat
  | [] => 0
  | b :: rest => (b &&& 127) + 128 * lebBytesValue rest

theorem lebBytesValue_lt : ∀ bs : List Nat, lebBytesValue bs < 2 ^ (7 * bs.length)
  | [] => by simp [lebBytesValue]
  | b :: rest => by
    have ih := lebBytesValue_lt rest
    have hb : b &&& 127 < 128 := by rw [and127_eq_mod]; omega
    simp only [lebBytesValue, List.length_cons]
    have : 2 ^ (7 * (rest.length + 1)) = 128 * 2 ^ (7 * rest.length) := by
      rw [Nat.mul_add, pow_add]; ring
    omega

theorem lebBytesValue_append_zeros (bs : List Nat) (k : Nat) :
    lebBytesValue (bs ++ List.replicate k 0) = lebBytesValue bs := by
  induction bs with
  | nil =>
    simp only [List.nil_append]
    induction k with
    | zero => rfl
    | succ n ih => simpa [List.replicate_succ, lebBytesValue] using ih
  | cons b rest ih => simp [lebBytesValue, ih]

/-- The accumulation loop computes the combined byte value truncated to W
bits. -/
theorem decodeAccum_eq (W : Nat) :
    ∀ (bytes : List Nat) (i v : Nat), v < 2 ^ (7 * i) → v < 2 ^ W →
      decodeAccum W bytes i v = (v + 2 ^ (7 * i) * lebBytesValue bytes) % 2 ^ W := by
  intro bytes
  induction bytes with
  | nil =>
    intro i v hvi hvW
    simp [decodeAccum, lebBytesValue, Nat.mod_eq_of_lt hvW]
  | cons b rest ih =>
    intro i v hvi hvW
    have hg : b &&& 127 < 128 := by rw [and127_eq_mod]; omega
    simp only [decodeAccum, lebBytesValue]
    rw [Nat.shiftLeft_eq]
    rcases lt_or_ge (7 * i) W with hiW | hiW
    · -- the shifted group keeps its bits below W
      have hW : 2 ^ W = 2 ^ (7 * i) * 2 ^ (W - 7 * i) := by
        rw [← pow_add]; congr 1; omega
      have hsplit : (b &&& 127) * 2 ^ (7 * i) % 2 ^ W
          = 2 ^ (7 * i) * ((b &&& 127) % 2 ^ (W - 7 * i)) := by
        rw [hW, mul_comm (b &&& 127) (2 ^ (7 * i)), Nat.mul_mod_mul_left]
      rw [hsplit, Nat.lor_comm, two_pow_mul_lor_eq_add _ _ _ hvi]
      have hmod : (b &&& 127) % 2 ^ (W - 7 * i) < 2 ^ (W - 7 * i) :=
        Nat.mod_lt _ (Nat.pos_pow_of_pos _ (by omega))
      have hstep : 2 ^ (7 * i) * ((b &&& 127) % 2 ^ (W - 7 * i) + 1)
          ≤ 2 ^ (7 * i) * 2 ^ (W - 7 * i) :=
        Nat.mul_le_mul_left _ (by omega)
      have hexpand : 2 ^ (7 * i) * ((b &&& 127) % 2 ^ (W - 7 * i) + 1)
          = 2 ^ (7 * i) * ((b &&& 127) % 2 ^ (W - 7 * i)) + 2 ^ (7 * i) := by ring
      have hlt1 : 2 ^ (7 * i) * ((b &&& 127) % 2 ^ (W - 7 * i)) + v < 2 ^ W := by
        rw [hW]; omega
      have h7 : 2 ^ (7 * (i + 1)) = 2 ^ (7 * i) * 128 := by
        rw [Nat.mul_add, pow_add]; ring
      have hle : (b &&& 127) % 2 ^ (W - 7 * i) ≤ b &&& 127 := Nat.mod_le _ _
      have hmul : 2 ^ (7 * i) * ((b &&& 127) % 2 ^ (W - 7 * i)) ≤ 2 ^ (7 * i) * 127 :=
        Nat.mul_le_mul_left _ (by omega)
      have hlt2 : 2 ^ (7 * i) * ((b &&& 127) % 2 ^ (W - 7 * i)) + v < 2 ^ (7 * (i + 1)) := by
        rw [h7]; omega
      rw [Nat.add_comm (2 ^ (7 * i) * ((b &&& 127) % 2 ^ (W - 7 * i))) v]
      rw [Nat.add_comm (2 ^ (7 * i) * ((b &&& 127) % 2 ^ (W - 7 * i))) v] at hlt1 hlt2
      rw [ih (i + 1) _ hlt2 hlt1]
      have hcong : v + 2 ^ (7 * i) * ((b &&& 127) % 2 ^ (W - 7 * i))
            + 2 ^ (7 * (i + 1)) * lebBytesValue rest
          ≡ v + 2 ^ (7 * i) * (b &&& 127) + 2 ^ (7 * (i + 1)) * lebBytesValue rest
            [MOD 2 ^ W] := by
        apply Nat.ModEq.add_right
        apply Nat.ModEq.add_left
        rw [hW]
        exact (Nat.mod_modEq _ _).mul_left' _
      have hring : v + 2 ^ (7 * i) * ((b &&& 127) + 128 * lebBytesValue rest)
          = v + 2 ^ (7 * i) * (b &&& 127) + 2 ^ (7 * (i + 1)) * lebBytesValue rest := by
        rw [h7]; ring
      rw [hring]
      exact hcong
    · -- the shifted group is wholly discarded: 2 ^ W divides it
      have hpow : 2 ^ (7 * i) = 2 ^ W * 2 ^ (7 * i - W) := by
        rw [← pow_add]; congr 1; omega
      have hzero : (b &&& 127) * 2 ^ (7 * i) % 2 ^ W = 0 := by
        rw [hpow, ← Nat.mul_assoc, Nat.mul_comm (b &&& 127) (2 ^ W), Nat.mul_assoc]
        exact Nat.mul_mod_right _ _
      have hor : v ||| (b &&& 127) * 2 ^ (7 * i) % 2 ^ W = v := by
        rw [hzero]
        simp
      rw [hor]
      have hlt2 : v < 2 ^ (7 * (i + 1)) := by
        have : (2 : Nat) ^ (7 * i) ≤ 2 ^ (7 * (i + 1)) :=
          Nat.pow_le_pow_right (by omega) (by omega)
        omega
      rw [ih (i + 1) v hlt2 hvW]
      have hexp : v + 2 ^ (7 * i) * ((b &&& 127) + 128 * lebBytesValue rest)
          = v + 2 ^ (7 * (i + 1)) * lebBytesValue rest
            + 2 ^ W * (2 ^ (7 * i - W) * (b &&& 127)) := by
        have h7 : 2 ^ (7 * (i + 1)) = 2 ^ (7 * i) * 128 := by
          rw [Nat.mul_add, pow_add]; ring
        rw [h7, hpow]; ring
      rw [hexp, Nat.add_mul_mod_self_left]

/-! ## Shape of encoded byte lists -/

/-- Shape of the byte lists the encoding loop produces: at least one byte,
every byte below 256, every byte but the last with the continuation bit 0x80
set, and the last byte with it clear. -/
def lebShape : List Nat → Prop
  | [] => False
  | [b] => b < 128
  | b :: rest => 128 ≤ b ∧ b < 256 ∧ lebShape rest

theorem lebShape_cons (b : Nat) (rest : List Nat) (h : rest ≠ []) :
    lebShape (b :: rest) ↔ 128 ≤ b ∧ b < 256 ∧ lebShape rest := by
  cases rest with
  | nil => exact absurd rfl h
  | cons c cs => simp [lebShape]

theorem lebShape_ne_nil {bs : List Nat} (h : lebShape bs) : bs ≠ [] := by
  cases bs with
  | nil => exact absurd h (by simp [lebShape])
  | cons b rest => simp

theorem lebShape_last_lt : ∀ bs : List Nat, lebShape bs → bs.getD (bs.length - 1) 0 < 128
  | [], h => absurd h (by simp [lebShape])
  | [b], h => h
  | b :: c :: cs, h => by
    have h2 : lebShape (c :: cs) := ((lebShape_cons b (c :: cs) (by simp)).mp h).2.2
    have ih := lebShape_last_lt (c :: cs) h2
    simpa [List.getD] using ih

/-- Reading from a stream that starts with a well-shaped byte list of length
at most maxBytes consumes exactly that list: the loop stops at its final byte
because the continuation bit is clear there. -/
theorem readVarIntBytes_shape :
    ∀ (bs : List Nat) (m : Nat) (rest : List Nat), lebShape bs → bs.length ≤ m →
      readVarIntBytes m (bs ++ rest) = .ok (bs, rest)
  | [], _, _, h, _ => absurd h (by simp [lebShape])
  | [b], m, rest, h, hlen => by
    obtain ⟨k, rfl⟩ : ∃ k, m = k + 1 := ⟨m - 1, by simp at hlen; omega⟩
    have hb : b &&& 128 = 0 := and128_eq_zero b h
    simp [readVarIntBytes, hb]
  | b :: c :: cs, m, rest, h, hlen => by
    obtain ⟨hb1, hb2, h2⟩ := (lebShape_cons b (c :: cs) (by simp)).mp h
    obtain ⟨k, rfl⟩ : ∃ k, m = k + 1 := ⟨m - 1, by simp at hlen; omega⟩
    have hb : b &&& 128 ≠ 0 := and128_ne_zero b hb2 hb1
    have ih := readVarIntBytes_shape (c :: cs) k rest h2 (by simp at hlen ⊢; omega)
    simp only [List.cons_append, readVarIntBytes, List.append_eq]
    simp only [List.cons_append] at ih
    rw [if_pos hb, ih]

/-- Reading from a stream whose first m bytes all carry the continuation bit
consumes exactly those m bytes: the loop exits because the byte budget is
exhausted, never having seen a clear continuation bit. -/
theorem readVarIntBytes_allCont :
    ∀ (bs : List Nat) (rest : List Nat), (∀ b ∈ bs, 128 ≤ b ∧ b < 256) →
      readVarIntBytes bs.length (bs ++ rest) = .ok (bs, rest)
  | [], rest, _ => by simp [readVarIntBytes]
  | b :: cs, rest, h => by
    have hb : b &&& 128 ≠ 0 :=
      and128_ne_zero b (h b (by simp)).2 (h b (by simp)).1
    have ih := readVarIntBytes_allCont cs rest (fun x hx => h x (by simp [hx]))
    simp only [List.cons_append, List.length_cons, readVarIntBytes, List.append_eq]
    rw [if_pos hb, ih]

/-! ## Properties of the unsigned encoding loop -/

theorem encodeVarUInt_ne_nil (v : Nat) : encodeVarUInt v ≠ [] := by
  rw [encodeVarUInt]
  split <;> simp

theorem encodeVarUInt_shape (v : Nat) : lebShape (encodeVarUInt v) := by
  induction v using Nat.strong_induction_on with
  | _ v ih =>
    rw [encodeVarUInt]
    have hlt : v &&& 127 < 128 := by rw [and127_eq_mod]; omega
    split
    · rename_i hcond
      rw [lebShape_cons _ _ (encodeVarUInt_ne_nil _)]
      have hdec : v >>> 7 < v := by
        rw [Nat.shiftRight_eq_div_pow] at hcond ⊢
        omega
      exact ⟨(lor128_bounds _ hlt).1, (lor128_bounds _ hlt).2, ih _ hdec⟩
    · simpa [lebShape] using hlt

theorem encodeVarUInt_value (v : Nat) : lebBytesValue (encodeVarUInt v) = v := by
  induction v using Nat.strong_induction_on with
  | _ v ih =>
    rw [encodeVarUInt]
    have hlt : v &&& 127 < 128 := by rw [and127_eq_mod]; omega
    split
    · rename_i hcond
      have hdec : v >>> 7 < v := by
        rw [Nat.shiftRight_eq_div_pow] at hcond ⊢
        omega
      simp only [lebBytesValue, ih _ hdec, lor128_and127 _ hlt]
      rw [and127_eq_mod, Nat.shiftRight_eq_div_pow]
      omega
    · rename_i hcond
      simp only [lebBytesValue, lt128_and127 _ hlt]
      rw [and127_eq_mod]
      rw [Nat.shiftRight_eq_div_pow] at hcond
      simp at hcond
      omega

theorem encodeVarUInt_length :
    ∀ (m v : Nat), 1 ≤ m → v < 2 ^ (7 * m) → (encodeVarUInt v).length ≤ m := by
  intro m
  induction m with
  | zero => omega
  | succ m ih =>
    intro v _ hv
    rw [encodeVarUInt]
    split
    · rename_i hcond
      rcases Nat.eq_zero_or_pos m with rfl | hm
      · rw [Nat.shiftRight_eq_div_pow] at hcond
        simp at hv
        omega
      · have hv7 : v >>> 7 < 2 ^ (7 * m) := by
          rw [Nat.shiftRight_eq_div_pow]
          have : 2 ^ (7 * (m + 1)) = 2 ^ (7 * m) * 128 := by
            rw [Nat.mul_add, pow_add]; ring
          omega
        have := ih (v >>> 7) hm hv7
        simp only [List.length_cons]
        omega
    · simp

/-! ## The final byte of a byte list bounds its value -/

theorem lebBytesValue_last_le :
    ∀ bs : List Nat, bs ≠ [] →
      (bs.getD (bs.length - 1) 0 &&& 127) * 2 ^ (7 * (bs.length - 1)) ≤ lebBytesValue bs
  | [], h => absurd rfl h
  | [b], _ => by simp [lebBytesValue]
  | b :: c :: cs, _ => by
    have ih := lebBytesValue_last_le (c :: cs) (by simp)
    have hidx : (b :: c :: cs).getD ((b :: c :: cs).length - 1) 0
        = (c :: cs).getD ((c :: cs).length - 1) 0 := by
      simp [List.getD]
    rw [hidx]
    simp only [lebBytesValue, List.length_cons] at ih ⊢
    have hpow : 2 ^ (7 * (cs.length + 1 + 1 - 1)) = 2 ^ (7 * (cs.length + 1 - 1)) * 128 := by
      rw [show 7 * (cs.length + 1 + 1 - 1) = 7 * (cs.length + 1 - 1) + 7 by omega, pow_add]
      norm_num
    rw [hpow]
    have hmul : ((c :: cs).getD (cs.length + 1 - 1) 0 &&& 127)
          * (2 ^ (7 * (cs.length + 1 - 1)) * 128)
        = ((c :: cs).getD (cs.length + 1 - 1) 0 &&& 127)
          * 2 ^ (7 * (cs.length + 1 - 1)) * 128 := by ring
    rw [hmul]
    omega

theorem lebBytesValue_last_lt :
    ∀ bs : List Nat, bs ≠ [] →
      lebBytesValue bs < ((bs.getD (bs.length - 1) 0 &&& 127) + 1) * 2 ^ (7 * (bs.length - 1))
  | [], h => absurd rfl h
  | [b], _ => by simp [lebBytesValue]
  | b :: c :: cs, _ => by
    have ih := lebBytesValue_last_lt (c :: cs) (by simp)
    have hb : b &&& 127 < 128 := by rw [and127_eq_mod]; omega
    have hidx : (b :: c :: cs).getD ((b :: c :: cs).length - 1) 0
        = (c :: cs).getD ((c :: cs).length - 1) 0 := by
      simp [List.getD]
    rw [hidx]
    simp only [lebBytesValue, List.length_cons] at ih ⊢
    have hpow : 2 ^ (7 * (cs.length + 1 + 1 - 1)) = 2 ^ (7 * (cs.length + 1 - 1)) * 128 := by
      rw [show 7 * (cs.length + 1 + 1 - 1) = 7 * (cs.length + 1 - 1) + 7 by omega, pow_add]
      norm_num
    rw [hpow]
    have hexp : (((c :: cs).getD (cs.length + 1 - 1) 0 &&& 127) + 1)
          * (2 ^ (7 * (cs.length + 1 - 1)) * 128)
        = (((c :: cs).getD (cs.length + 1 - 1) 0 &&& 127) + 1)
          * 2 ^ (7 * (cs.length + 1 - 1)) * 128 := by ring
    rw [hexp]
    omega

/-- The byte the final-byte check of the decoder examines: index maxBytes - 1
of the zero-padded buffer is the final byte read when exactly maxBytes bytes
were read, and a padding zero otherwise. -/
theorem padded_getD (bs : List Nat) (m : Nat) (hne : bs ≠ []) (h1 : bs.length ≤ m) :
    (bs ++ List.replicate (m - bs.length) 0).getD (m - 1) 0
      = if bs.length = m then bs.getD (bs.length - 1) 0 else 0 := by
  have hpos : 0 < bs.length := List.length_pos.mpr hne
  by_cases h : bs.length = m
  · rw [if_pos h, List.getD_eq_getElem?_getD, List.getD_eq_getElem?_getD,
      List.getElem?_append_left (by omega), h]
  · rw [if_neg h, List.getD_eq_getElem?_getD,
      List.getElem?_append_right (by omega), List.getElem?_replicate]
    split <;> rfl

theorem decodeAccum_spec (W : Nat) (bytes : List Nat) :
    decodeAccum W bytes 0 0 = lebBytesValue bytes % 2 ^ W := by
  rw [decodeAccum_eq W bytes 0 0 (by norm_num) (Nat.pos_pow_of_pos _ (by omega))]
  norm_num

/-- Behaviour of the unsigned decoder on a stream beginning with a well-shaped
byte list whose final-byte check passes: it consumes exactly that list and
applies the range check to its combined value. -/
theorem serializeVarUIntIn_char (W maxBits minValue maxValue : Nat)
    (bs rest : List Nat) (hshape : lebShape bs)
    (hlen : bs.length ≤ (maxBits + 6) / 7)
    (hWv : lebBytesValue bs < 2 ^ W)
    (hcheck : (if bs.length = (maxBits + 6) / 7 then bs.getD (bs.length - 1) 0 else 0)
        &&& (255 - ((1 <<< (maxBits - ((maxBits + 6) / 7 - 1) * 7)) % 256 - 1)) = 0) :
    serializeVarUIntIn W maxBits minValue maxValue (bs ++ rest)
      = if lebBytesValue bs < minValue ∨ lebBytesValue bs > maxValue then
          .error (outOfRangeMsgU minValue (lebBytesValue bs) maxValue)
        else .ok (lebBytesValue bs, rest) := by
  simp only [serializeVarUIntIn]
  rw [readVarIntBytes_shape bs _ rest hshape hlen]
  dsimp only
  rw [padded_getD bs _ (lebShape_ne_nil hshape) hlen]
  rw [if_neg (not_not_intro hcheck)]
  rw [decodeAccum_spec, lebBytesValue_append_zeros, Nat.mod_eq_of_lt hWv]

/-! ## Properties of the signed encoding loop -/

theorem encodeVarSInt_dec (v : Int)
    (h : (v / 128 ≠ 0 ∧ v / 128 ≠ -1)
      ∨ (0 ≤ v / 128 ∧ (v % 128).toNat &&& 64 ≠ 0)
      ∨ (v / 128 < 0 ∧ (v % 128).toNat &&& 64 = 0)) :
    (v / 128).natAbs < v.natAbs := by
  have hd := Int.ediv_add_emod v 128
  have h0 : (0 : Int) ≤ v % 128 := Int.emod_nonneg v (by omega)
  have h1 : v % 128 < 128 := Int.emod_lt_of_pos v (by omega)
  have h2 := and64_iff (v % 128).toNat (by omega)
  rcases h with ⟨h3, h4⟩ | ⟨h3, h4⟩ | ⟨h3, h4⟩
  · omega
  · rw [h2] at h4; omega
  · have h5 : ¬64 ≤ (v % 128).toNat := fun hc => h2.mpr hc h4
    omega

theorem encodeVarSInt_ne_nil (v : Int) : encodeVarSInt v ≠ [] := by
  rw [encodeVarSInt]
  split <;> simp

/-- Invariant of the signed encoding loop: the emitted list is well shaped,
its combined 7-bit groups are the low bits of the twos complement of the
input, and the input lies in the signed range of the emitted bit count. -/
theorem encodeVarSInt_spec (v : Int) :
    lebShape (encodeVarSInt v)
    ∧ lebBytesValue (encodeVarSInt v)
        = (v % 2 ^ (7 * (encodeVarSInt v).length)).toNat
    ∧ -(2 ^ (7 * (encodeVarSInt v).length - 1) : Int) ≤ v
    ∧ v < 2 ^ (7 * (encodeVarSInt v).length - 1) := by
  suffices h : ∀ (n : Nat) (v : Int), v.natAbs = n →
      lebShape (encodeVarSInt v)
      ∧ lebBytesValue (encodeVarSInt v)
          = (v % 2 ^ (7 * (encodeVarSInt v).length)).toNat
      ∧ -(2 ^ (7 * (encodeVarSInt v).length - 1) : Int) ≤ v
      ∧ v < 2 ^ (7 * (encodeVarSInt v).length - 1) from h _ v rfl
  intro n
  induction n using Nat.strong_induction_on with
  | _ n ih =>
    intro v hn
    subst hn
    have h0 : (0 : Int) ≤ v % 128 := Int.emod_nonneg v (by omega)
    have h1 : v % 128 < 128 := Int.emod_lt_of_pos v (by omega)
    have hd := Int.ediv_add_emod v 128
    have hrb : (v % 128).toNat < 128 := by omega
    rw [encodeVarSInt]
    split
    · rename_i hcond
      have hdec := encodeVarSInt_dec v hcond
      obtain ⟨ihs, ihv, ihlo, ihhi⟩ := ih (v / 128).natAbs hdec (v / 128) rfl
      have hn'pos : 0 < (encodeVarSInt (v / 128)).length :=
        List.length_pos.mpr (lebShape_ne_nil ihs)
      set n' := (encodeVarSInt (v / 128)).length with hn'
      have hM : (0 : Int) < 2 ^ (7 * n') := by positivity
      have hMM : ((2 : Int) ^ (7 * (n' + 1))) = 128 * 2 ^ (7 * n') := by
        rw [show 7 * (n' + 1) = 7 * n' + 7 by omega, pow_add]
        ring
      have hP : ((2 : Int) ^ (7 * (n' + 1) - 1)) = 128 * 2 ^ (7 * n' - 1) := by
        rw [show 7 * (n' + 1) - 1 = (7 * n' - 1) + 7 by omega, pow_add]
        ring
    -- the split identity for the twos-complement residue
      have hm0 : (0 : Int) ≤ v / 128 % 2 ^ (7 * n') := Int.emod_nonneg _ (by omega)
      have hm1 : v / 128 % 2 ^ (7 * n') < 2 ^ (7 * n') := Int.emod_lt_of_pos _ hM
      have hdd := Int.ediv_add_emod (v / 128) (2 ^ (7 * n'))
      have hb : (0 : Int) < 128 * 2 ^ (7 * n') := by positivity
      have hsplit2 : v / (128 * 2 ^ (7 * n')) = v / 128 / 2 ^ (7 * n')
          ∧ v % (128 * 2 ^ (7 * n')) = 128 * (v / 128 % 2 ^ (7 * n')) + v % 128 :=
        (Int.ediv_emod_unique hb).mpr
          ⟨by linear_combination 128 * hdd + hd, by omega, by omega⟩
      have hsplit : v % 2 ^ (7 * (n' + 1))
          = 128 * (v / 128 % 2 ^ (7 * n')) + v % 128 := by
        rw [hMM]
        exact hsplit2.2
      constructor
      · rw [lebShape_cons _ _ (encodeVarSInt_ne_nil _)]
        exact ⟨(lor128_bounds _ hrb).1, (lor128_bounds _ hrb).2, ihs⟩
      constructor
      · simp only [lebBytesValue, List.length_cons, lor128_and127 _ hrb]
        rw [ihv, hsplit]
        omega
      · simp only [List.length_cons]
        rw [hP]
        constructor
        · omega
        · omega
    · rename_i hcond
      push_neg at hcond
      obtain ⟨hA, hB, hC⟩ := hcond
      have h2 := and64_iff (v % 128).toNat hrb
      have hq : v = 128 * (v / 128) + v % 128 := by omega
      have hrange : -64 ≤ v ∧ v < 64 := by
        by_cases h64 : 64 ≤ (v % 128).toNat
        · have hbit : (v % 128).toNat &&& 64 ≠ 0 := h2.mpr h64
          have hneg : v / 128 < 0 := by
            by_contra hge
            exact hbit (hB (by omega))
          have hqm1 : v / 128 = -1 := hA (by omega)
          omega
        · have hbit : (v % 128).toNat &&& 64 = 0 := not_not.mp (mt h2.mp h64)
          have hpos : 0 ≤ v / 128 := by
            by_contra hlt
            exact hC (by omega) hbit
          have hq0 : v / 128 = 0 := by
            by_contra hne
            have := hA hne
            omega
          omega
      refine ⟨?_, ?_, ?_, ?_⟩
      · simpa [lebShape] using hrb
      · simp only [lebBytesValue, List.length_cons, List.length_nil, lt128_and127 _ hrb]
        norm_num
      · simp only [List.length_cons, List.length_nil]
        norm_num
        omega
      · simp only [List.length_cons, List.length_nil]
        norm_num
        omega

/-- A value in the signed range of 7 * m bits is encoded in at most m bytes. -/
theorem encodeVarSInt_length :
    ∀ (m : Nat) (v : Int), 1 ≤ m → -(2 ^ (7 * m - 1) : Int) ≤ v →
      v < 2 ^ (7 * m - 1) → (encodeVarSInt v).length ≤ m := by
  intro m
  induction m with
  | zero => omega
  | succ m ih =>
    intro v _ hlo hhi
    have h0 : (0 : Int) ≤ v % 128 := Int.emod_nonneg v (by omega)
    have h1 : v % 128 < 128 := Int.emod_lt_of_pos v (by omega)
    have hd := Int.ediv_add_emod v 128
    have hrb : (v % 128).toNat < 128 := by omega
    have h2 := and64_iff (v % 128).toNat hrb
    rw [encodeVarSInt]
    split
    · rename_i hcond
      rcases Nat.eq_zero_or_pos m with rfl | hmpos
      · -- one byte suffices, so the loop cannot continue
        exfalso
        norm_num at hlo hhi
        by_cases h64 : 64 ≤ (v % 128).toNat
        · have hbit : (v % 128).toNat &&& 64 ≠ 0 := h2.mpr h64
          rcases hcond with ⟨h3, h4⟩ | ⟨h3, h4⟩ | ⟨h3, h4⟩
          · omega
          · omega
          · exact hbit h4
        · have hbit : (v % 128).toNat &&& 64 = 0 := not_not.mp (mt h2.mp h64)
          rcases hcond with ⟨h3, h4⟩ | ⟨h3, h4⟩ | ⟨h3, h4⟩
          · omega
          · exact h4 hbit
          · omega
      · have hP : ((2 : Int) ^ (7 * (m + 1) - 1)) = 128 * 2 ^ (7 * m - 1) := by
          rw [show 7 * (m + 1) - 1 = (7 * m - 1) + 7 by omega, pow_add]
          ring
        rw [hP] at hlo hhi
        have hlen := ih (v / 128) hmpos (by omega) (by omega)
        simp only [List.length_cons]
        omega
    · simp

/-! ## Sign extension -/

/-- The value the signed decoder produces from the byte list it read: when the
sign-extension shift is positive, the W-bit left shift followed by an
arithmetic right shift sign-extends the 7 * n read bits; otherwise the raw
W-bit pattern is reinterpreted directly. -/
def lebDecodeSigned (W : Nat) (bs : List Nat) : Int :=
  if 7 * bs.length < W then toSigned (7 * bs.length) (lebBytesValue bs)
  else toSigned W (lebBytesValue bs % 2 ^ W)

/-- Shifting a value of at most m < W bits to the top of a W-bit word and
arithmetically shifting it back sign-extends its bit m - 1. -/
theorem toSigned_shift_div (W m raw : Nat) (hm : 0 < m) (hmW : m < W)
    (hraw : raw < 2 ^ m) :
    toSigned W ((raw <<< (W - m)) % 2 ^ W) / 2 ^ (W - m) = toSigned m raw := by
  have hxlt : raw * 2 ^ (W - m) < 2 ^ W := by
    have hWsplit : 2 ^ W = 2 ^ m * 2 ^ (W - m) := by
      rw [← pow_add]; congr 1; omega
    rw [hWsplit]
    exact (Nat.mul_lt_mul_right (Nat.pos_pow_of_pos _ (by omega))).mpr hraw
  rw [Nat.shiftLeft_eq, Nat.mod_eq_of_lt hxlt]
  have hW1 : 2 ^ (W - 1) = 2 ^ (m - 1) * 2 ^ (W - m) := by
    rw [← pow_add]; congr 1; omega
  have hWm : 2 ^ W = 2 ^ m * 2 ^ (W - m) := by
    rw [← pow_add]; congr 1; omega
  have hpos : (0 : Nat) < 2 ^ (W - m) := Nat.pos_pow_of_pos _ (by omega)
  unfold toSigned
  rcases lt_or_ge raw (2 ^ (m - 1)) with hc | hc
  · rw [if_pos (by rw [hW1]; exact (Nat.mul_lt_mul_right hpos).mpr hc), if_pos hc]
    push_cast
    rw [Int.mul_ediv_cancel _ (by positivity)]
  · rw [if_neg (by rw [hW1]; exact not_lt.mpr (Nat.mul_le_mul_right _ hc)),
      if_neg (not_lt.mpr hc)]
    have : (raw * 2 ^ (W - m) : Int) - 2 ^ W
        = ((raw : Int) - 2 ^ m) * 2 ^ (W - m) := by
      have : ((2 : Int) ^ W) = 2 ^ m * 2 ^ (W - m) := by
        rw [← pow_add]; congr 1; omega
      rw [this]; ring
    push_cast
    rw [this, Int.mul_ediv_cancel _ (by positivity)]

/-- Reading back the low m bits of the twos complement of v recovers v when v
lies in the signed m-bit range. -/
theorem toSigned_emod (m : Nat) (v : Int) (hm : 0 < m)
    (h1 : -(2 ^ (m - 1)) ≤ v) (h2 : v < 2 ^ (m - 1)) :
    toSigned m ((v % 2 ^ m).toNat) = v := by
  have hp : ((2 : Int) ^ m) = 2 * 2 ^ (m - 1) := by
    rw [← pow_succ']
    congr 1
    omega
  have hpos : (0 : Int) < 2 ^ m := by positivity
  have hr0 : (0 : Int) ≤ v % 2 ^ m := Int.emod_nonneg v (by omega)
  have hrval : v % 2 ^ m = if 0 ≤ v then v else v + 2 ^ m := by
    split
    · exact Int.emod_eq_of_lt (by omega) (by omega)
    · rename_i hneg
      have heq : v + 2 ^ m = v + 2 ^ m * 1 := by ring
      have h3 : (v + 2 ^ m * 1) % 2 ^ m = v % 2 ^ m := Int.add_mul_emod_self_left v (2 ^ m) 1
      rw [← heq] at h3
      rw [← h3]
      exact Int.emod_eq_of_lt (by omega) (by omega)
  have hcast1 : (((2 : Nat) ^ (m - 1) : Nat) : Int) = 2 ^ (m - 1) := by push_cast; rfl
  have hcast2 : (((2 : Nat) ^ m : Nat) : Int) = 2 ^ m := by push_cast; rfl
  unfold toSigned
  split
  · rename_i hlt
    rw [Int.toNat_of_nonneg hr0]
    split at hrval <;> omega
  · rename_i hge
    rw [Int.toNat_of_nonneg hr0]
    rw [not_lt] at hge
    split at hrval <;> omega

/-- Behaviour of the signed decoder on a stream beginning with a well-shaped
byte list whose final-byte check passes: it consumes exactly that list,
sign-extends the bits read, and applies the range check. -/
theorem serializeVarSIntIn_char (W maxBits : Nat) (minValue maxValue : Int)
    (bs rest : List Nat) (hshape : lebShape bs)
    (hlen : bs.length ≤ (maxBits + 6) / 7)
    (hcheck : (if bs.length = (maxBits + 6) / 7 then bs.getD (bs.length - 1) 0 else 0)
          &&& (255 - ((1 <<< (maxBits - ((maxBits + 6) / 7 - 1) * 7)) % 256 - 1)) = 0
      ∨ (if bs.length = (maxBits + 6) / 7 then bs.getD (bs.length - 1) 0 else 0)
          &&& (255 - ((1 <<< (maxBits - ((maxBits + 6) / 7 - 1) * 7)) % 256 - 1))
        = (255 - ((1 <<< (maxBits - ((maxBits + 6) / 7 - 1) * 7)) % 256 - 1)) &&& 127) :
    serializeVarSIntIn W maxBits minValue maxValue (bs ++ rest)
      = if lebDecodeSigned W bs < minValue ∨ lebDecodeSigned W bs > maxValue then
          .error (outOfRangeMsg minValue (lebDecodeSigned W bs) maxValue)
        else .ok (lebDecodeSigned W bs, rest) := by
  simp only [serializeVarSIntIn]
  rw [readVarIntBytes_shape bs _ rest hshape hlen]
  dsimp only
  rw [padded_getD bs _ (lebShape_ne_nil hshape) hlen]
  rw [if_neg (fun hcontra => hcontra.elim (fun ha hb => hcheck.elim ha hb))]
  rw [decodeAccum_spec, lebBytesValue_append_zeros]
  have hpos : 0 < bs.length := List.length_pos.mpr (lebShape_ne_nil hshape)
  have hfit : lebBytesValue bs < 2 ^ (7 * bs.length) := lebBytesValue_lt bs
  by_cases h7 : 7 * bs.length < W
  · have hraw : lebBytesValue bs % 2 ^ W = lebBytesValue bs :=
      Nat.mod_eq_of_lt (lt_of_lt_of_le hfit (Nat.pow_le_pow_right (by omega) (by omega)))
    rw [if_pos h7, hraw,
      toSigned_shift_div W (7 * bs.length) (lebBytesValue bs) (by omega) h7 hfit]
    simp only [lebDecodeSigned, if_pos h7]
  · rw [if_neg h7]
    simp only [lebDecodeSigned, if_neg h7]

/-! ## Encode-then-decode -/

/-- Decoding an unsigned encoding: the decoder consumes exactly the encoded
bytes and returns the encoded value, for any parameters whose final-byte mask
admits every possible final byte of an in-range encoding. -/
theorem serializeVarUIntIn_encode (W maxBits maxValue v : Nat) (rest : List Nat)
    (hmb : 1 ≤ maxBits) (hWb : maxBits ≤ W) (hmax : maxValue < 2 ^ maxBits)
    (hv : v ≤ maxValue)
    (hfact : ∀ g, g < 2 ^ (maxBits - ((maxBits + 6) / 7 - 1) * 7) →
      g &&& (255 - ((1 <<< (maxBits - ((maxBits + 6) / 7 - 1) * 7)) % 256 - 1)) = 0) :
    serializeVarUIntIn W maxBits 0 maxValue (encodeVarUInt v ++ rest)
      = .ok (v, rest) := by
  have hvb : v < 2 ^ maxBits := by omega
  have hmb7 : maxBits ≤ 7 * ((maxBits + 6) / 7) := by omega
  have hshape := encodeVarUInt_shape v
  have hval := encodeVarUInt_value v
  have hlen : (encodeVarUInt v).length ≤ (maxBits + 6) / 7 :=
    encodeVarUInt_length _ v (by omega)
      (lt_of_lt_of_le hvb (Nat.pow_le_pow_right (by omega) hmb7))
  have hWv : lebBytesValue (encodeVarUInt v) < 2 ^ W := by
    rw [hval]
    exact lt_of_lt_of_le hvb (Nat.pow_le_pow_right (by omega) hWb)
  have hcheck : (if (encodeVarUInt v).length = (maxBits + 6) / 7
        then (encodeVarUInt v).getD ((encodeVarUInt v).length - 1) 0 else 0)
      &&& (255 - ((1 <<< (maxBits - ((maxBits + 6) / 7 - 1) * 7)) % 256 - 1)) = 0 := by
    split
    · rename_i hfull
      set bs := encodeVarUInt v with hbs
      set g := bs.getD (bs.length - 1) 0 with hg
      have hglt : g < 128 := lebShape_last_lt bs hshape
      have hle := lebBytesValue_last_le bs (lebShape_ne_nil hshape)
      rw [← hg, lt128_and127 _ hglt, hval] at hle
      have hpowsplit : 2 ^ maxBits
          = 2 ^ (7 * (bs.length - 1)) * 2 ^ (maxBits - ((maxBits + 6) / 7 - 1) * 7) := by
        rw [← pow_add]
        congr 1
        omega
      have hmul : g * 2 ^ (7 * (bs.length - 1))
          < 2 ^ (7 * (bs.length - 1)) * 2 ^ (maxBits - ((maxBits + 6) / 7 - 1) * 7) := by
        rw [← hpowsplit]
        omega
      rw [mul_comm] at hmul
      exact hfact g (Nat.lt_of_mul_lt_mul_left hmul)
    · exact Nat.zero_and _
  rw [serializeVarUIntIn_char W maxBits 0 maxValue (encodeVarUInt v) rest hshape hlen
    hWv hcheck, hval, if_neg (by omega)]

/-- Decoding a signed encoding at the natural width W (maxBits = W, range the
full signed W-bit range, as in the varint32/varint64 helpers): the decoder
consumes exactly the encoded bytes and returns the encoded value. The two mask
hypotheses describe the final byte of a maximal-length encoding: its used bits
start below the sign threshold (non-negative values) or above it (negative
values). -/
theorem serializeVarSIntIn_encode (W : Nat) (v : Int) (rest : List Nat)
    (hW : 1 ≤ W)
    (hlo : -(2 ^ (W - 1)) ≤ v) (hhi : v ≤ 2 ^ (W - 1) - 1)
    (hfactA : ∀ g, g < 2 ^ (W - ((W + 6) / 7 - 1) * 7 - 1) →
      g &&& (255 - ((1 <<< (W - ((W + 6) / 7 - 1) * 7)) % 256 - 1)) = 0)
    (hfactB : ∀ g, g < 128 → 128 - 2 ^ (W - ((W + 6) / 7 - 1) * 7 - 1) ≤ g →
      g &&& (255 - ((1 <<< (W - ((W + 6) / 7 - 1) * 7)) % 256 - 1))
        = (255 - ((1 <<< (W - ((W + 6) / 7 - 1) * 7)) % 256 - 1)) &&& 127) :
    serializeVarSIntIn W W (-(2 ^ (W - 1))) (2 ^ (W - 1) - 1)
      (encodeVarSInt v ++ rest) = .ok (v, rest) := by
  obtain ⟨hshape, hval, hrlo, hrhi⟩ := encodeVarSInt_spec v
  have hnpos : 0 < (encodeVarSInt v).length :=
    List.length_pos.mpr (lebShape_ne_nil hshape)
  set bs := encodeVarSInt v with hbs
  set n := bs.length with hn
  have hmono1 : ((2 : Int) ^ (W - 1)) ≤ 2 ^ (7 * ((W + 6) / 7) - 1) :=
    pow_le_pow_right (by norm_num) (by omega)
  have hlen : n ≤ (W + 6) / 7 := by
    rw [hn, hbs]
    exact encodeVarSInt_length _ v (by omega) (by omega) (by omega)
  have hWn : W ≤ 7 * ((W + 6) / 7) := by omega
  -- facts bridging Int and Nat powers
  have hc7n : (((2 : Nat) ^ (7 * n) : Nat) : Int) = 2 ^ (7 * n) := by push_cast; rfl
  have hcW1 : (((2 : Nat) ^ (W - 1) : Nat) : Int) = 2 ^ (W - 1) := by push_cast; rfl
  have hval0 : (0 : Int) ≤ v % 2 ^ (7 * n) := Int.emod_nonneg v (by positivity)
  have hcheck : (if n = (W + 6) / 7 then bs.getD (n - 1) 0 else 0)
        &&& (255 - ((1 <<< (W - ((W + 6) / 7 - 1) * 7)) % 256 - 1)) = 0
      ∨ (if n = (W + 6) / 7 then bs.getD (n - 1) 0 else 0)
          &&& (255 - ((1 <<< (W - ((W + 6) / 7 - 1) * 7)) % 256 - 1))
        = (255 - ((1 <<< (W - ((W + 6) / 7 - 1) * 7)) % 256 - 1)) &&& 127 := by
    split
    · rename_i hfull
      set g := bs.getD (n - 1) 0 with hg
      have hglt : g < 128 := lebShape_last_lt bs hshape
      have hle := lebBytesValue_last_le bs (lebShape_ne_nil hshape)
      have hlt := lebBytesValue_last_lt bs (lebShape_ne_nil hshape)
      rw [← hn, ← hg, lt128_and127 _ hglt] at hle hlt
      have hLv : lebBytesValue bs = (v % 2 ^ (7 * n)).toNat := hval
      have hsplit1 : (2 : Nat) ^ (W - 1)
          = 2 ^ (7 * (n - 1)) * 2 ^ (W - ((W + 6) / 7 - 1) * 7 - 1) := by
        rw [← pow_add]
        congr 1
        omega
      have hsplit2 : (2 : Nat) ^ (7 * n) = 2 ^ (7 * (n - 1)) * 128 := by
        rw [show 7 * n = 7 * (n - 1) + 7 by omega, pow_add]
        norm_num
      rcases le_or_lt 0 v with hv0 | hv0
      · -- non-negative value: the final byte is below the sign threshold
        left
        have hvlt : v < 2 ^ (7 * n) := by
          have : ((2 : Int) ^ (W - 1)) ≤ 2 ^ (7 * n) :=
            pow_le_pow_right (by norm_num) (by omega)
          omega
        have hvmod : v % 2 ^ (7 * n) = v := Int.emod_eq_of_lt hv0 hvlt
        have hLnat : lebBytesValue bs < 2 ^ (W - 1) := by
          have hvW : v < 2 ^ (W - 1) := by omega
          rw [hLv, hvmod]
          omega
        have hmul : g * 2 ^ (7 * (n - 1))
            < 2 ^ (7 * (n - 1)) * 2 ^ (W - ((W + 6) / 7 - 1) * 7 - 1) := by
          rw [← hsplit1]
          omega
        rw [mul_comm] at hmul
        exact hfactA g (Nat.lt_of_mul_lt_mul_left hmul)
      · -- negative value: the final byte is at or above the sign threshold
        right
        have hpp : ((2 : Int) ^ (7 * n)) = 2 * 2 ^ (7 * n - 1) := by
          rw [← pow_succ']
          congr 1
          omega
        have hvmod : v % 2 ^ (7 * n) = v + 2 ^ (7 * n) := by
          have heq : v + 2 ^ (7 * n) = v + 2 ^ (7 * n) * 1 := by ring
          have h3 : (v + 2 ^ (7 * n) * 1) % 2 ^ (7 * n) = v % 2 ^ (7 * n) :=
            Int.add_mul_emod_self_left v (2 ^ (7 * n)) 1
          rw [← heq] at h3
          rw [← h3]
          refine Int.emod_eq_of_lt (by omega) (by omega)
        have hLge : 2 ^ (7 * n) - 2 ^ (W - 1) ≤ lebBytesValue bs := by
          rw [hLv, hvmod]
          omega
        have hbound : 128 - 2 ^ (W - ((W + 6) / 7 - 1) * 7 - 1) ≤ g := by
          by_contra hcon
          push_neg at hcon
          have hgle : g + 1 ≤ 128 - 2 ^ (W - ((W + 6) / 7 - 1) * 7 - 1) := by omega
          have hstep : (g + 1) * 2 ^ (7 * (n - 1))
              ≤ (128 - 2 ^ (W - ((W + 6) / 7 - 1) * 7 - 1)) * 2 ^ (7 * (n - 1)) :=
            Nat.mul_le_mul_right _ hgle
          have hexp : (128 - 2 ^ (W - ((W + 6) / 7 - 1) * 7 - 1)) * 2 ^ (7 * (n - 1))
              = 2 ^ (7 * n) - 2 ^ (W - 1) := by
            rw [hsplit1, hsplit2]
            have hle128 : 2 ^ (W - ((W + 6) / 7 - 1) * 7 - 1) ≤ 128 := by
              have : W - ((W + 6) / 7 - 1) * 7 - 1 ≤ 7 := by omega
              calc 2 ^ (W - ((W + 6) / 7 - 1) * 7 - 1) ≤ 2 ^ 7 :=
                    Nat.pow_le_pow_right (by omega) this
                _ ≤ 128 := by norm_num
            rw [Nat.sub_mul]
            ring_nf
          omega
        exact hfactB g hglt hbound
    · exact Or.inl (Nat.zero_and _)
  rw [serializeVarSIntIn_char W W (-(2 ^ (W - 1))) (2 ^ (W - 1) - 1) bs rest hshape
    hlen hcheck]
  have hdec : lebDecodeSigned W bs = v := by
    unfold lebDecodeSigned
    split
    · rename_i h7
      rw [hval]
      exact toSigned_emod (7 * n) v (by omega) (by omega) (by omega)
    · rename_i h7
      push_neg at h7
      have hdvd : ((2 : Int) ^ W) ∣ 2 ^ (7 * n) := pow_dvd_pow 2 h7
      have hcast : ((lebBytesValue bs % 2 ^ W : Nat) : Int) = v % 2 ^ W := by
        push_cast
        rw [hval, Int.toNat_of_nonneg hval0]
        exact Int.emod_emod_of_dvd v hdvd
      have hgoal : lebBytesValue bs % 2 ^ W = (v % 2 ^ W).toNat := by omega
      rw [hgoal]
      exact toSigned_emod W v (by omega) hlo (by omega)
  rw [hdec, if_neg (by omega)]

/-- Claim C1: for every bit width B in {1,7,32,64}, signed or unsigned as
bound by the named helpers, and every value in the declared range of the
helper, encoding the value with serializeVarInt to an output stream and then
decoding those bytes with serializeVarInt from an input stream yields the
original value (consuming exactly the encoded bytes). -/
theorem varint_roundtrip :
    (∀ v : Nat, v ≤ 1 →
      serializeVarUInt1Out v >>= serializeVarUInt1In = .ok (v, []))
    ∧ (∀ v : Nat, v ≤ 127 →
      serializeVarUInt7Out v >>= serializeVarUInt7In = .ok (v, []))
    ∧ (∀ v : Nat, v ≤ 2 ^ 32 - 1 →
      serializeVarUInt32Out v >>= serializeVarUInt32In = .ok (v, []))
    ∧ (∀ v : Nat, v ≤ 2 ^ 64 - 1 →
      serializeVarUInt64Out v >>= serializeVarUInt64In = .ok (v, []))
    ∧ (∀ v : Int, -(2 ^ 31) ≤ v → v ≤ 2 ^ 31 - 1 →
      serializeVarInt32Out v >>= serializeVarInt32In = .ok (v, []))
    ∧ (∀ v : Int, -(2 ^ 63) ≤ v → v ≤ 2 ^ 63 - 1 →
      serializeVarInt64Out v >>= serializeVarInt64In = .ok (v, [])) := by
  refine ⟨?_, ?_, ?_, ?_, ?_, ?_⟩
  · intro v hv
    simp only [serializeVarUInt1Out, serializeVarUIntOut,
      if_neg (by omega : ¬(v < 0 ∨ v > 1))]
    show serializeVarUInt1In (encodeVarUInt v) = .ok (v, [])
    rw [serializeVarUInt1In, ← List.append_nil (encodeVarUInt v)]
    exact serializeVarUIntIn_encode 32 1 1 v [] (by omega) (by omega) (by norm_num)
      hv (by decide)
  · intro v hv
    simp only [serializeVarUInt7Out, serializeVarUIntOut,
      if_neg (by omega : ¬(v < 0 ∨ v > 127))]
    show serializeVarUInt7In (encodeVarUInt v) = .ok (v, [])
    rw [serializeVarUInt7In, ← List.append_nil (encodeVarUInt v)]
    exact serializeVarUIntIn_encode 32 7 127 v [] (by omega) (by omega) (by norm_num)
      hv (by decide)
  · intro v hv
    simp only [serializeVarUInt32Out, serializeVarUIntOut,
      if_neg (by omega : ¬(v < 0 ∨ v > 2 ^ 32 - 1))]
    show serializeVarUInt32In (encodeVarUInt v) = .ok (v, [])
    rw [serializeVarUInt32In, ← List.append_nil (encodeVarUInt v)]
    exact serializeVarUIntIn_encode 32 32 (2 ^ 32 - 1) v [] (by omega) (by omega)
      (by norm_num) hv (by decide)
  · intro v hv
    simp only [serializeVarUInt64Out, serializeVarUIntOut,
      if_neg (by omega : ¬(v < 0 ∨ v > 2 ^ 64 - 1))]
    show serializeVarUInt64In (encodeVarUInt v) = .ok (v, [])
    rw [serializeVarUInt64In, ← List.append_nil (encodeVarUInt v)]
    exact serializeVarUIntIn_encode 64 64 (2 ^ 64 - 1) v [] (by omega) (by omega)
      (by norm_num) hv (by decide)
  · intro v hlo hhi
    simp only [serializeVarInt32Out, serializeVarSIntOut,
      if_neg (by omega : ¬(v < -(2 ^ 31) ∨ v > 2 ^ 31 - 1))]
    show serializeVarInt32In (encodeVarSInt v) = .ok (v, [])
    rw [serializeVarInt32In, ← List.append_nil (encodeVarSInt v)]
    exact serializeVarSIntIn_encode 32 v [] (by omega) (by norm_num; omega)
      (by norm_num; omega) (by decide) (by decide)
  · intro v hlo hhi
    simp only [serializeVarInt64Out, serializeVarSIntOut,
      if_neg (by omega : ¬(v < -(2 ^ 63) ∨ v > 2 ^ 63 - 1))]
    show serializeVarInt64In (encodeVarSInt v) = .ok (v, [])
    rw [serializeVarInt64In, ← List.append_nil (encodeVarSInt v)]
    exact serializeVarSIntIn_encode 64 v [] (by omega) (by norm_num; omega)
      (by norm_num; omega) (by decide) (by decide)

/-- Witness for claim C1 at the value 624485 as varuint32. -/
theorem varint_roundtrip_witness :
    serializeVarUInt32Out 624485 >>= serializeVarUInt32In = .ok (624485, []) :=
  varint_roundtrip.2.2.1 624485 (by norm_num)

/-- Claim C8: encoding the unsigned value 624485 as varuint32 emits exactly
the bytes E5 8E 26, and encoding the signed value -123456 as varint32 emits
exactly the bytes C0 BB 78. -/
theorem varint_encode_examples :
    serializeVarUInt32Out 624485 = .ok [0xE5, 0x8E, 0x26]
    ∧ serializeVarInt32Out (-123456) = .ok [0xC0, 0xBB, 0x78] := by
  constructor
  · simp only [serializeVarUInt32Out, serializeVarUIntOut]
    rw [encodeVarUInt, encodeVarUInt, encodeVarUInt]
    decide
  · simp only [serializeVarInt32Out, serializeVarSIntOut]
    rw [encodeVarSInt, encodeVarSInt, encodeVarSInt]
    decide

/-- Counterexample to claim C2 as stated: decoding the bytes E5 8E A6 00 as
varuint32 is not rejected; it succeeds with the value 624485. The final-byte
check of the decoder examines the zero-initialised buffer slot
bytes[maxBytes - 1], which is 0 when only four of the five possible bytes
were read, so the check passes. -/
theorem varuint32_accepts_E58EA600 :
    serializeVarUInt32In [0xE5, 0x8E, 0xA6, 0x00] = .ok (624485, []) := by decide

/-- Reading a full buffer of continuation-bit bytes leaves the continuation
bit set in the examined final-byte slot, so the unsigned decoder rejects. -/
theorem serializeVarUIntIn_overlong (W maxBits minV maxV : Nat)
    (bs rest : List Nat) (hmb : 1 ≤ maxBits)
    (hlen : bs.length = (maxBits + 6) / 7)
    (hcont : ∀ b ∈ bs, 128 ≤ b ∧ b < 256)
    (hmask : ∀ b, b < 256 → 128 ≤ b →
      b &&& (255 - ((1 <<< (maxBits - ((maxBits + 6) / 7 - 1) * 7)) % 256 - 1)) ≠ 0) :
    serializeVarUIntIn W maxBits minV maxV (bs ++ rest) = .error invalidLEBMsg := by
  have hne : bs ≠ [] := by
    intro hcon
    rw [hcon] at hlen
    simp at hlen
    omega
  have hread : readVarIntBytes ((maxBits + 6) / 7) (bs ++ rest) = .ok (bs, rest) := by
    rw [← hlen]
    exact readVarIntBytes_allCont bs rest hcont
  simp only [serializeVarUIntIn]
  rw [hread]
  dsimp only
  rw [padded_getD bs _ hne (le_of_eq hlen), if_pos hlen]
  have hmem : bs.getD (bs.length - 1) 0 ∈ bs := by
    have hpos : 0 < bs.length := List.length_pos.mpr hne
    rw [List.getD_eq_getElem bs 0 (by omega)]
    exact List.getElem_mem _
  obtain ⟨hb1, hb2⟩ := hcont _ hmem
  rw [if_pos (hmask _ hb2 hb1)]

/-- Reading a full buffer of continuation-bit bytes leaves the continuation
bit set in the examined final-byte slot, so the signed decoder rejects: the
continuation bit is outside the signed final-byte pattern as well. -/
theorem serializeVarSIntIn_overlong (W maxBits : Nat) (minV maxV : Int)
    (bs rest : List Nat) (hmb : 1 ≤ maxBits)
    (hlen : bs.length = (maxBits + 6) / 7)
    (hcont : ∀ b ∈ bs, 128 ≤ b ∧ b < 256)
    (hmask : ∀ b, b < 256 → 128 ≤ b →
      b &&& (255 - ((1 <<< (maxBits - ((maxBits + 6) / 7 - 1) * 7)) % 256 - 1)) ≠ 0
      ∧ b &&& (255 - ((1 <<< (maxBits - ((maxBits + 6) / 7 - 1) * 7)) % 256 - 1))
        ≠ (255 - ((1 <<< (maxBits - ((maxBits + 6) / 7 - 1) * 7)) % 256 - 1)) &&& 127) :
    serializeVarSIntIn W maxBits minV maxV (bs ++ rest) = .error invalidLEBMsg := by
  have hne : bs ≠ [] := by
    intro hcon
    rw [hcon] at hlen
    simp at hlen
    omega
  have hread : readVarIntBytes ((maxBits + 6) / 7) (bs ++ rest) = .ok (bs, rest) := by
    rw [← hlen]
    exact readVarIntBytes_allCont bs rest hcont
  simp only [serializeVarSIntIn]
  rw [hread]
  dsimp only
  rw [padded_getD bs _ hne (le_of_eq hlen), if_pos hlen]
  have hmem : bs.getD (bs.length - 1) 0 ∈ bs := by
    have hpos : 0 < bs.length := List.length_pos.mpr hne
    rw [List.getD_eq_getElem bs 0 (by omega)]
    exact List.getElem_mem _
  obtain ⟨hb1, hb2⟩ := hcont _ hmem
  rw [if_pos (hmask _ hb2 hb1)]

/-- A full-length well-shaped read whose final byte fails the unsigned
final-byte test is rejected. -/
theorem serializeVarUIntIn_badFinal (W maxBits minV maxV : Nat)
    (bs rest : List Nat) (hshape : lebShape bs)
    (hlen : bs.length = (maxBits + 6) / 7)
    (hbad : bs.getD (bs.length - 1) 0
      &&& (255 - ((1 <<< (maxBits - ((maxBits + 6) / 7 - 1) * 7)) % 256 - 1)) ≠ 0) :
    serializeVarUIntIn W maxBits minV maxV (bs ++ rest) = .error invalidLEBMsg := by
  simp only [serializeVarUIntIn]
  rw [readVarIntBytes_shape bs _ rest hshape (le_of_eq hlen)]
  dsimp only
  rw [padded_getD bs _ (lebShape_ne_nil hshape) (le_of_eq hlen), if_pos hlen,
    if_pos hbad]

/-- A full-length well-shaped read whose final byte fails the signed
final-byte test is rejected. -/
theorem serializeVarSIntIn_badFinal (W maxBits : Nat) (minV maxV : Int)
    (bs rest : List Nat) (hshape : lebShape bs)
    (hlen : bs.length = (maxBits + 6) / 7)
    (hbad : bs.getD (bs.length - 1) 0
        &&& (255 - ((1 <<< (maxBits - ((maxBits + 6) / 7 - 1) * 7)) % 256 - 1)) ≠ 0
      ∧ bs.getD (bs.length - 1) 0
          &&& (255 - ((1 <<< (maxBits - ((maxBits + 6) / 7 - 1) * 7)) % 256 - 1))
        ≠ (255 - ((1 <<< (maxBits - ((maxBits + 6) / 7 - 1) * 7)) % 256 - 1)) &&& 127) :
    serializeVarSIntIn W maxBits minV maxV (bs ++ rest) = .error invalidLEBMsg := by
  simp only [serializeVarSIntIn]
  rw [readVarIntBytes_shape bs _ rest hshape (le_of_eq hlen)]
  dsimp only
  rw [padded_getD bs _ (lebShape_ne_nil hshape) (le_of_eq hlen), if_pos hlen,
    if_pos hbad]

/-- Claim C2, amended: the decoder rejects with the message "Invalid LEB
encoding: invalid final byte" every input whose first ceil(B/7) bytes all
carry the continuation bit, and every input from which exactly ceil(B/7)
bytes are read and whose final byte has unused high bits that are not all
zero (unsigned) or neither all zero nor the sign pattern (signed); the
final-byte test examines only the byte slot maxBytes - 1 of the
zero-initialised buffer, so a shorter read is never subject to it — in
particular E5 8E A6 00 decodes as varuint32 to 624485. -/
theorem varint_invalid_final_byte :
    (∀ bs rest : List Nat, bs.length = 1 → (∀ b ∈ bs, 128 ≤ b ∧ b < 256) →
      serializeVarUInt1In (bs ++ rest) = .error invalidLEBMsg)
    ∧ (∀ bs rest : List Nat, bs.length = 1 → (∀ b ∈ bs, 128 ≤ b ∧ b < 256) →
      serializeVarUInt7In (bs ++ rest) = .error invalidLEBMsg)
    ∧ (∀ bs rest : List Nat, bs.length = 5 → (∀ b ∈ bs, 128 ≤ b ∧ b < 256) →
      serializeVarUInt32In (bs ++ rest) = .error invalidLEBMsg)
    ∧ (∀ bs rest : List Nat, bs.length = 10 → (∀ b ∈ bs, 128 ≤ b ∧ b < 256) →
      serializeVarUInt64In (bs ++ rest) = .error invalidLEBMsg)
    ∧ (∀ bs rest : List Nat, bs.length = 5 → (∀ b ∈ bs, 128 ≤ b ∧ b < 256) →
      serializeVarInt32In (bs ++ rest) = .error invalidLEBMsg)
    ∧ (∀ bs rest : List Nat, bs.length = 10 → (∀ b ∈ bs, 128 ≤ b ∧ b < 256) →
      serializeVarInt64In (bs ++ rest) = .error invalidLEBMsg)
    ∧ (∀ bs rest : List Nat, lebShape bs → bs.length = 1 →
      bs.getD (bs.length - 1) 0 &&& 254 ≠ 0 →
      serializeVarUInt1In (bs ++ rest) = .error invalidLEBMsg)
    ∧ (∀ bs rest : List Nat, lebShape bs → bs.length = 1 →
      bs.getD (bs.length - 1) 0 &&& 128 ≠ 0 →
      serializeVarUInt7In (bs ++ rest) = .error invalidLEBMsg)
    ∧ (∀ bs rest : List Nat, lebShape bs → bs.length = 5 →
      bs.getD (bs.length - 1) 0 &&& 240 ≠ 0 →
      serializeVarUInt32In (bs ++ rest) = .error invalidLEBMsg)
    ∧ (∀ bs rest : List Nat, lebShape bs → bs.length = 10 →
      bs.getD (bs.length - 1) 0 &&& 254 ≠ 0 →
      serializeVarUInt64In (bs ++ rest) = .error invalidLEBMsg)
    ∧ (∀ bs rest : List Nat, lebShape bs → bs.length = 5 →
      bs.getD (bs.length - 1) 0 &&& 240 ≠ 0 →
      bs.getD (bs.length - 1) 0 &&& 240 ≠ 112 →
      serializeVarInt32In (bs ++ rest) = .error invalidLEBMsg)
    ∧ (∀ bs rest : List Nat, lebShape bs → bs.length = 10 →
      bs.getD (bs.length - 1) 0 &&& 254 ≠ 0 →
      bs.getD (bs.length - 1) 0 &&& 254 ≠ 126 →
      serializeVarInt64In (bs ++ rest) = .error invalidLEBMsg)
    ∧ serializeVarUInt32In [0xE5, 0x8E, 0xA6, 0x00] = .ok (624485, []) := by
  refine ⟨?_, ?_, ?_, ?_, ?_, ?_, ?_, ?_, ?_, ?_, ?_, ?_, by decide⟩
  · intro bs rest hl hc
    exact serializeVarUIntIn_overlong 32 1 0 1 bs rest (by omega) hl hc (by decide)
  · intro bs rest hl hc
    exact serializeVarUIntIn_overlong 32 7 0 127 bs rest (by omega) hl hc (by decide)
  · intro bs rest hl hc
    exact serializeVarUIntIn_overlong 32 32 0 (2 ^ 32 - 1) bs rest (by omega) hl hc
      (by decide)
  · intro bs rest hl hc
    exact serializeVarUIntIn_overlong 64 64 0 (2 ^ 64 - 1) bs rest (by omega) hl hc
      (by decide)
  · intro bs rest hl hc
    exact serializeVarSIntIn_overlong 32 32 (-(2 ^ 31)) (2 ^ 31 - 1) bs rest (by omega)
      hl hc (by decide)
  · intro bs rest hl hc
    exact serializeVarSIntIn_overlong 64 64 (-(2 ^ 63)) (2 ^ 63 - 1) bs rest (by omega)
      hl hc (by decide)
  · intro bs rest hs hl hb
    exact serializeVarUIntIn_badFinal 32 1 0 1 bs rest hs hl hb
  · intro bs rest hs hl hb
    exact serializeVarUIntIn_badFinal 32 7 0 127 bs rest hs hl hb
  · intro bs rest hs hl hb
    exact serializeVarUIntIn_badFinal 32 32 0 (2 ^ 32 - 1) bs rest hs hl hb
  · intro bs rest hs hl hb
    exact serializeVarUIntIn_badFinal 64 64 0 (2 ^ 64 - 1) bs rest hs hl hb
  · intro bs rest hs hl hb1 hb2
    exact serializeVarSIntIn_badFinal 32 32 (-(2 ^ 31)) (2 ^ 31 - 1) bs rest hs hl
      ⟨hb1, hb2⟩
  · intro bs rest hs hl hb1 hb2
    exact serializeVarSIntIn_badFinal 64 64 (-(2 ^ 63)) (2 ^ 63 - 1) bs rest hs hl
      ⟨hb1, hb2⟩

/-- Witness for the amended claim C2: a varuint32 stream of five continuation
bytes is rejected as an invalid final byte. -/
theorem varint_invalid_final_byte_witness :
    serializeVarUInt32In ([0xFF, 0xFF, 0xFF, 0xFF, 0xFF] ++ []) = .error invalidLEBMsg :=
  varint_invalid_final_byte.2.2.1 [0xFF, 0xFF, 0xFF, 0xFF, 0xFF] [] (by decide) (by decide)

/-- Claim C5: serializeVarInt rejects values outside [minValue, maxValue]
with a FatalSerializationException whose message carries both bounds and the
observed value. On an output stream the check precedes the loop, so the error
result carries no bytes; on an input stream the check is applied to the value
decoded from the bytes that were already read and that passed the final-byte
test. -/
theorem varint_range_check :
    (∀ minV maxV v : Nat, v < minV ∨ v > maxV →
      serializeVarUIntOut minV maxV v
        = .error ("out-of-range value: " ++ toString minV ++ "<=" ++ toString v
            ++ "<=" ++ toString maxV))
    ∧ (∀ minV maxV v : Int, v < minV ∨ v > maxV →
      serializeVarSIntOut minV maxV v
        = .error ("out-of-range value: " ++ toString minV ++ "<=" ++ toString v
            ++ "<=" ++ toString maxV))
    ∧ (∀ (W maxBits minV maxV : Nat) (bs rest : List Nat), lebShape bs →
      bs.length ≤ (maxBits + 6) / 7 → lebBytesValue bs < 2 ^ W →
      (if bs.length = (maxBits + 6) / 7 then bs.getD (bs.length - 1) 0 else 0)
        &&& (255 - ((1 <<< (maxBits - ((maxBits + 6) / 7 - 1) * 7)) % 256 - 1)) = 0 →
      lebBytesValue bs < minV ∨ lebBytesValue bs > maxV →
      serializeVarUIntIn W maxBits minV maxV (bs ++ rest)
        = .error ("out-of-range value: " ++ toString minV ++ "<="
            ++ toString (lebBytesValue bs) ++ "<=" ++ toString maxV))
    ∧ (∀ (W maxBits : Nat) (minV maxV : Int) (bs rest : List Nat), lebShape bs →
      bs.length ≤ (maxBits + 6) / 7 →
      ((if bs.length = (maxBits + 6) / 7 then bs.getD (bs.length - 1) 0 else 0)
          &&& (255 - ((1 <<< (maxBits - ((maxBits + 6) / 7 - 1) * 7)) % 256 - 1)) = 0
        ∨ (if bs.length = (maxBits + 6) / 7 then bs.getD (bs.length - 1) 0 else 0)
            &&& (255 - ((1 <<< (maxBits - ((maxBits + 6) / 7 - 1) * 7)) % 256 - 1))
          = (255 - ((1 <<< (maxBits - ((maxBits + 6) / 7 - 1) * 7)) % 256 - 1)) &&& 127) →
      lebDecodeSigned W bs < minV ∨ lebDecodeSigned W bs > maxV →
      serializeVarSIntIn W maxBits minV maxV (bs ++ rest)
        = .error ("out-of-range value: " ++ toString minV ++ "<="
            ++ toString (lebDecodeSigned W bs) ++ "<=" ++ toString maxV)) := by
  refine ⟨?_, ?_, ?_, ?_⟩
  · intro minV maxV v h
    rw [serializeVarUIntOut, if_pos h, outOfRangeMsgU]
  · intro minV maxV v h
    rw [serializeVarSIntOut, if_pos h, outOfRangeMsg]
  · intro W maxBits minV maxV bs rest hs hl hW hcheck hout
    rw [serializeVarUIntIn_char W maxBits minV maxV bs rest hs hl hW hcheck,
      if_pos hout, outOfRangeMsgU]
  · intro W maxBits minV maxV bs rest hs hl hcheck hout
    rw [serializeVarSIntIn_char W maxBits minV maxV bs rest hs hl hcheck,
      if_pos hout, outOfRangeMsg]

/-- Witness for claim C5: the value 5 is outside the varuint1 range [0, 1]. -/
theorem varint_range_check_witness :
    serializeVarUIntOut 0 1 5
      = .error ("out-of-range value: " ++ toString 0 ++ "<=" ++ toString 5
          ++ "<=" ++ toString 1) :=
  varint_range_check.1 0 1 5 (by omega)

/-- A well-shaped byte list has the continuation bit set on every byte but the
last and clear on the last. -/
theorem lebShape_cont : ∀ bs : List Nat, lebShape bs →
    (∀ i, i + 1 < bs.length → bs.getD i 0 &&& 128 ≠ 0)
    ∧ bs.getD (bs.length - 1) 0 &&& 128 = 0
  | [], h => absurd h (by simp [lebShape])
  | [b], h => ⟨fun i hi => by simp at hi, and128_eq_zero b h⟩
  | b :: c :: cs, h => by
    obtain ⟨h1, h2, h3⟩ := (lebShape_cons b (c :: cs) (by simp)).mp h
    obtain ⟨ih1, ih2⟩ := lebShape_cont (c :: cs) h3
    constructor
    · intro i hi
      cases i with
      | zero => exact and128_ne_zero b h2 h1
      | succ j =>
        have : (b :: c :: cs).getD (j + 1) 0 = (c :: cs).getD j 0 := by
          simp [List.getD]
        rw [this]
        exact ih1 j (by simp at hi ⊢; omega)
    · have : (b :: c :: cs).getD ((b :: c :: cs).length - 1) 0
          = (c :: cs).getD ((c :: cs).length - 1) 0 := by
        simp [List.getD]
      rw [this]
      exact ih2

/-- Claim C10: for every bit width and every value inside the corresponding
range, the encoder emits at most ceil(maxBits/7) bytes, every emitted byte but
the last carries the continuation bit 0x80 and the last does not, and the
reading loop of a subsequent decode consumes exactly the emitted bytes and no
more. -/
theorem varint_encoder_output_shape :
    (∀ maxBits v : Nat, 1 ≤ maxBits → v < 2 ^ maxBits →
      (encodeVarUInt v).length ≤ (maxBits + 6) / 7)
    ∧ (∀ (maxBits : Nat) (v : Int), 1 ≤ maxBits → -(2 ^ (maxBits - 1)) ≤ v →
      v < 2 ^ (maxBits - 1) → (encodeVarSInt v).length ≤ (maxBits + 6) / 7)
    ∧ (∀ v : Nat, (∀ i, i + 1 < (encodeVarUInt v).length →
        (encodeVarUInt v).getD i 0 &&& 128 ≠ 0)
      ∧ (encodeVarUInt v).getD ((encodeVarUInt v).length - 1) 0 &&& 128 = 0)
    ∧ (∀ v : Int, (∀ i, i + 1 < (encodeVarSInt v).length →
        (encodeVarSInt v).getD i 0 &&& 128 ≠ 0)
      ∧ (encodeVarSInt v).getD ((encodeVarSInt v).length - 1) 0 &&& 128 = 0)
    ∧ (∀ (m v : Nat) (rest : List Nat), (encodeVarUInt v).length ≤ m →
      readVarIntBytes m (encodeVarUInt v ++ rest) = .ok (encodeVarUInt v, rest))
    ∧ (∀ (m : Nat) (v : Int) (rest : List Nat), (encodeVarSInt v).length ≤ m →
      readVarIntBytes m (encodeVarSInt v ++ rest) = .ok (encodeVarSInt v, rest)) := by
  refine ⟨?_, ?_, ?_, ?_, ?_, ?_⟩
  · intro maxBits v hmb hv
    exact encodeVarUInt_length _ v (by omega)
      (lt_of_lt_of_le hv (Nat.pow_le_pow_right (by omega) (by omega)))
  · intro maxBits v hmb hlo hhi
    have hmono : ((2 : Int) ^ (maxBits - 1)) ≤ 2 ^ (7 * ((maxBits + 6) / 7) - 1) :=
      pow_le_pow_right (by norm_num) (by omega)
    exact encodeVarSInt_length _ v (by omega) (by omega) (by omega)
  · intro v
    exact lebShape_cont _ (encodeVarUInt_shape v)
  · intro v
    exact lebShape_cont _ (encodeVarSInt_spec v).1
  · intro m v rest hm
    exact readVarIntBytes_shape _ m rest (encodeVarUInt_shape v) hm
  · intro m v rest hm
    exact readVarIntBytes_shape _ m rest (encodeVarSInt_spec v).1 hm

/-- Witness for claim C10: the varuint32 encoding of 624485 fits in five
bytes. -/
theorem varint_encoder_output_shape_witness :
    (encodeVarUInt 624485).length ≤ (32 + 6) / 7 :=
  varint_encoder_output_shape.1 32 624485 (by omega) (by norm_num)

/-- Claim C7: advance and peek on a MemoryInputStream over N bytes of which k
are consumed throw "expected data but found end of stream" exactly when more
than N - k bytes are requested; otherwise advance returns the previous cursor
and moves it forward by exactly n, and peek returns the cursor without
consuming. -/
theorem memory_stream_advance_peek (s : MemoryInputStream) (n : Nat)
    (hk : s.consumed ≤ s.full.length) :
    (s.advance n = .error endOfStreamMsg ↔ n > s.full.length - s.consumed)
    ∧ (n ≤ s.full.length - s.consumed →
      s.advance n = .ok (s.consumed, ⟨s.full, s.consumed + n⟩))
    ∧ (s.peek n = .error endOfStreamMsg ↔ n > s.full.length - s.consumed)
    ∧ (n ≤ s.full.length - s.consumed → s.peek n = .ok s.consumed) := by
  have hadv : s.advance n
      = if s.consumed + n > s.full.length then .error endOfStreamMsg
        else .ok (s.consumed, ⟨s.full, s.consumed + n⟩) := rfl
  have hpeek : s.peek n
      = if s.consumed + n > s.full.length then .error endOfStreamMsg
        else .ok s.consumed := rfl
  by_cases hc : s.consumed + n > s.full.length
  · rw [hadv, hpeek, if_pos hc, if_pos hc]
    exact ⟨⟨fun _ => by omega, fun _ => rfl⟩,
      fun hn => absurd hc (by omega),
      ⟨fun _ => by omega, fun _ => rfl⟩,
      fun hn => absurd hc (by omega)⟩
  · rw [hadv, hpeek, if_neg hc, if_neg hc]
    refine ⟨⟨fun h => by simp at h, fun h => absurd (show s.consumed + n > s.full.length
        by omega) hc⟩, fun _ => rfl,
      ⟨fun h => by simp at h, fun h => absurd (show s.consumed + n > s.full.length
        by omega) hc⟩, fun _ => rfl⟩

/-- Witness for claim C7: a stream of three bytes with one consumed admits a
two-byte advance. -/
theorem memory_stream_advance_peek_witness :
    MemoryInputStream.advance ⟨[10, 20, 30], 1⟩ 2 = .ok (1, ⟨[10, 20, 30], 3⟩) :=
  (memory_stream_advance_peek ⟨[10, 20, 30], 1⟩ 2 (by simp)).2.1 (by simp)

/-! ## LLVMJIT module memory manager (src/Lib/LLVMJIT/LLVMJITLoad.cpp) -/

/-- ModuleMemoryManager::Section (LLVMJITLoad.cpp lines 209-214). -/
structure Section where
  baseAddress : Nat
  numPages : Nat
  numCommittedBytes : Nat
deriving DecidableEq

/-- ModuleMemoryManager::align (lines 248-251):
`(size + alignment - 1) & ~(alignment - 1)` in Uptr arithmetic. Uptr
subtraction of 1 is modelled as adding 2 ^ 64 - 1 modulo 2 ^ 64, and the
complement of x as xor with the all-ones word. -/
def align (size alignment : Nat) : Nat :=
  ((size + alignment + (2 ^ 64 - 1)) % 2 ^ 64)
    &&& ((2 ^ 64 - 1) ^^^ ((alignment + (2 ^ 64 - 1)) % 2 ^ 64))

/-- ModuleMemoryManager::shrAndRoundUp (lines 252-255):
`(value + (Uptr(1) << shift) - 1) >> shift` in Uptr arithmetic. -/
def shrAndRoundUp (value shift : Nat) : Nat :=
  ((value + (1 <<< shift) % 2 ^ 64 + (2 ^ 64 - 1)) % 2 ^ 64) >>> shift

/-- ModuleMemoryManager::allocateBytes (lines 228-246): round the committed
cursor up to the alignment, hand out the pointer at the rounded cursor,
advance the cursor by the rounded size, and fail fatally (none) when the new
cursor exceeds the space reserved for the section. -/
def allocateBytes (numBytes alignment pageSizeLog2 : Nat) (sect : Section) :
    Option (Nat × Section) :=
  let allocationBaseAddress :=
    (sect.baseAddress + align sect.numCommittedBytes alignment) % 2 ^ 64
  let newNumCommittedBytes :=
    (align sect.numCommittedBytes alignment + align numBytes alignment) % 2 ^ 64
  if newNumCommittedBytes > (sect.numPages <<< pageSizeLog2) % 2 ^ 64 then none
  else some (allocationBaseAddress,
    ⟨sect.baseAddress, sect.numPages, newNumCommittedBytes⟩)

/-- Bits at and above position k of a W-bit word, extracted by the mask
2 ^ W - 2 ^ k, equal the word with its low k bits cleared. -/
theorem and_high_mask (W k x : Nat) (hk : k ≤ W) (hx : x < 2 ^ W) :
    x &&& (2 ^ W - 2 ^ k) = 2 ^ k * (x / 2 ^ k) := by
  have he : W - k + k = W := by omega
  have hmask : 2 ^ W - 2 ^ k = (2 ^ (W - k) - 1) <<< k := by
    rw [Nat.shiftLeft_eq, Nat.sub_mul, one_mul, ← pow_add, he]
  have hrhs : 2 ^ k * (x / 2 ^ k) = (x >>> k) <<< k := by
    rw [Nat.shiftLeft_eq, Nat.shiftRight_eq_div_pow]
    ring
  rw [hmask, hrhs]
  apply Nat.eq_of_testBit_eq
  intro i
  rw [Nat.testBit_and, Nat.testBit_shiftLeft, Nat.testBit_shiftLeft,
    Nat.testBit_two_pow_sub_one, Nat.testBit_shiftRight]
  rcases lt_or_ge i k with hik | hik
  · have h1 : (decide (i ≥ k)) = false := decide_eq_false (by omega)
    rw [h1]
    simp
  · have h1 : (decide (i ≥ k)) = true := decide_eq_true hik
    have h3 : k + (i - k) = i := by omega
    rcases lt_or_ge i W with hiW | hiW
    · have h2 : (decide (i - k < W - k)) = true := decide_eq_true (by omega)
      rw [h1, h2, h3]
      simp
    · have h2 : (decide (i - k < W - k)) = false := decide_eq_false (by omega)
      have hbit : x.testBit i = false :=
        Nat.testBit_lt_two_pow (lt_of_lt_of_le hx (Nat.pow_le_pow_right (by omega) hiW))
      rw [h1, h2, h3, hbit]
      simp

/-- For a power-of-two alignment and no overflow, align computes the upward
rounding to a multiple of the alignment. -/
theorem align_eq (size k : Nat) (hk : k < 64) (hs : size + 2 ^ k ≤ 2 ^ 64) :
    align size (2 ^ k) = 2 ^ k * ((size + 2 ^ k - 1) / 2 ^ k) := by
  unfold align
  have hkpos : (0 : Nat) < 2 ^ k := Nat.pos_pow_of_pos _ (by omega)
  have hk64 : (2 : Nat) ^ k < 2 ^ 64 := Nat.pow_lt_pow_right (by omega) hk
  have h1 : (2 ^ k + (2 ^ 64 - 1)) % 2 ^ 64 = 2 ^ k - 1 := by
    have heq : 2 ^ k + (2 ^ 64 - 1) = (2 ^ k - 1) + 2 ^ 64 := by omega
    rw [heq, Nat.add_mod_right]
    exact Nat.mod_eq_of_lt (by omega)
  have h2 : (size + 2 ^ k + (2 ^ 64 - 1)) % 2 ^ 64 = size + 2 ^ k - 1 := by
    have heq : size + 2 ^ k + (2 ^ 64 - 1) = (size + 2 ^ k - 1) + 2 ^ 64 := by omega
    rw [heq, Nat.add_mod_right]
    exact Nat.mod_eq_of_lt (by omega)
  have h3 : (2 ^ 64 - 1) ^^^ (2 ^ k - 1) = 2 ^ 64 - 2 ^ k := by
    apply Nat.eq_of_testBit_eq
    intro i
    rw [Nat.testBit_xor, Nat.testBit_two_pow_sub_one, Nat.testBit_two_pow_sub_one]
    have he : 64 - k + k = 64 := by omega
    have hmask : (2 : Nat) ^ 64 - 2 ^ k = (2 ^ (64 - k) - 1) <<< k := by
      rw [Nat.shiftLeft_eq, Nat.sub_mul, one_mul, ← pow_add, he]
    rw [hmask, Nat.testBit_shiftLeft, Nat.testBit_two_pow_sub_one]
    rcases lt_or_ge i k with hik | hik
    · have ha : (decide (i ≥ k)) = false := decide_eq_false (by omega)
      have hb : (decide (i < 64)) = true := decide_eq_true (by omega)
      have hc : (decide (i < k)) = true := decide_eq_true hik
      rw [ha, hb, hc]
      simp
    · have ha : (decide (i ≥ k)) = true := decide_eq_true hik
      have hc : (decide (i < k)) = false := decide_eq_false (by omega)
      rcases lt_or_ge i 64 with hiW | hiW
      · have hb : (decide (i < 64)) = true := decide_eq_true hiW
        have hd : (decide (i - k < 64 - k)) = true := decide_eq_true (by omega)
        rw [ha, hb, hc, hd]
        simp
      · have hb : (decide (i < 64)) = false := decide_eq_false (by omega)
        have hd : (decide (i - k < 64 - k)) = false := decide_eq_false (by omega)
        rw [ha, hb, hc, hd]
        simp
  rw [h1, h2, h3]
  rw [and_high_mask 64 k (size + 2 ^ k - 1) (by omega) (by omega)]

/-- Counterexample to claim C4 as stated: allocating 1 byte at alignment 16
in a fresh section (cursor 0) sets the committed-bytes cursor to 16, the
rounded-up size, not to (0 rounded up to 16) + 1 = 1 as the claim asserts. -/
theorem allocateBytes_counterexample :
    (allocateBytes 1 16 12 ⟨4096, 1, 0⟩).map (fun r => r.2.numCommittedBytes)
        = some 16
    ∧ align 0 16 + 1 = 1 ∧ (16 : Nat) ≠ 1 := by decide

/-- Claim C4, amended: for a power-of-two alignment and no overflow, the
returned pointer is the section base plus the cursor rounded up to the
alignment, the new cursor is the rounded-up old cursor plus the rounded-up
size (the size is rounded up to the alignment as well), and the call fails
fatally exactly when the new cursor exceeds the reserved size of the
section. -/
theorem allocateBytes_spec (numBytes k pageSizeLog2 : Nat) (sect : Section)
    (hk : k < 64)
    (hc : sect.numCommittedBytes + 2 ^ k ≤ 2 ^ 64)
    (hn : numBytes + 2 ^ k ≤ 2 ^ 64)
    (hsum : 2 ^ k * ((sect.numCommittedBytes + 2 ^ k - 1) / 2 ^ k)
        + 2 ^ k * ((numBytes + 2 ^ k - 1) / 2 ^ k) < 2 ^ 64)
    (hbase : sect.baseAddress
        + 2 ^ k * ((sect.numCommittedBytes + 2 ^ k - 1) / 2 ^ k) < 2 ^ 64)
    (hpages : sect.numPages * 2 ^ pageSizeLog2 < 2 ^ 64) :
    allocateBytes numBytes (2 ^ k) pageSizeLog2 sect
      = if 2 ^ k * ((sect.numCommittedBytes + 2 ^ k - 1) / 2 ^ k)
            + 2 ^ k * ((numBytes + 2 ^ k - 1) / 2 ^ k)
          > sect.numPages * 2 ^ pageSizeLog2 then none
        else some
          (sect.baseAddress + 2 ^ k * ((sect.numCommittedBytes + 2 ^ k - 1) / 2 ^ k),
            ⟨sect.baseAddress, sect.numPages,
              2 ^ k * ((sect.numCommittedBytes + 2 ^ k - 1) / 2 ^ k)
                + 2 ^ k * ((numBytes + 2 ^ k - 1) / 2 ^ k)⟩) := by
  simp only [allocateBytes]
  rw [align_eq _ k hk hc, align_eq _ k hk hn, Nat.mod_eq_of_lt hsum,
    Nat.mod_eq_of_lt hbase, Nat.shiftLeft_eq, Nat.mod_eq_of_lt hpages]

/-- Witness for the amended claim C4: a 1-byte allocation at alignment 16 in
a fresh one-page section. -/
theorem allocateBytes_spec_witness :
    allocateBytes 1 (2 ^ 4) 12 ⟨4096, 1, 0⟩
      = if 2 ^ 4 * ((0 + 2 ^ 4 - 1) / 2 ^ 4) + 2 ^ 4 * ((1 + 2 ^ 4 - 1) / 2 ^ 4)
          > 1 * 2 ^ 12 then none
        else some (4096 + 2 ^ 4 * ((0 + 2 ^ 4 - 1) / 2 ^ 4),
          ⟨4096, 1, 2 ^ 4 * ((0 + 2 ^ 4 - 1) / 2 ^ 4)
            + 2 ^ 4 * ((1 + 2 ^ 4 - 1) / 2 ^ 4)⟩) :=
  allocateBytes_spec 1 4 12 ⟨4096, 1, 0⟩ (by omega) (by norm_num) (by norm_num)
    (by norm_num) (by norm_num) (by norm_num)

/-- The memory-manager state reserveAllocationSpace produces: the image base,
the total page count, and the three sections. Initial (constructor) values are
zero, matching the zero-initialisation on lines 80-84. -/
structure ModuleMemoryState where
  imageBaseAddress : Nat
  numAllocatedImagePages : Nat
  codeSection : Section
  readOnlySection : Section
  readWriteSection : Section
deriving DecidableEq

/-- ModuleMemoryManager::reserveAllocationSpace (LLVMJITLoad.cpp lines
118-151). Under Windows SEH the code size is padded by 32 bytes for the SEH
trampoline (line 128) before the page counts are computed. When the total
page count is nonzero, one contiguous range is reserved and committed
(abstracted by the imageBase parameter, the address a successful
allocateVirtualPages returns) and the three section base addresses are laid
out consecutively; otherwise nothing is reserved and the base addresses keep
their zero initialisation. -/
def reserveAllocationSpace (useWindowsSEH : Bool) (pageSizeLog2 imageBase
    numCodeBytes numReadOnlyBytes numReadWriteBytes : Nat) : ModuleMemoryState :=
  let numCodeBytes2 :=
    if useWindowsSEH then (numCodeBytes + 32) % 2 ^ 64 else numCodeBytes
  let codePages := shrAndRoundUp numCodeBytes2 pageSizeLog2
  let roPages := shrAndRoundUp numReadOnlyBytes pageSizeLog2
  let rwPages := shrAndRoundUp numReadWriteBytes pageSizeLog2
  let totalPages := (codePages + roPages + rwPages) % 2 ^ 64
  if totalPages ≠ 0 then
    let codeBase := imageBase
    let roBase := (codeBase + (codePages <<< pageSizeLog2) % 2 ^ 64) % 2 ^ 64
    let rwBase := (roBase + (roPages <<< pageSizeLog2) % 2 ^ 64) % 2 ^ 64
    ⟨imageBase, totalPages, ⟨codeBase, codePages, 0⟩, ⟨roBase, roPages, 0⟩,
      ⟨rwBase, rwPages, 0⟩⟩
  else
    ⟨0, totalPages, ⟨0, codePages, 0⟩, ⟨0, roPages, 0⟩, ⟨0, rwPages, 0⟩⟩

/-- shrAndRoundUp computes the rounded-up shift when nothing overflows. -/
theorem shrAndRoundUp_eq (value k : Nat) (hk : k < 64)
    (hv : value + 2 ^ k ≤ 2 ^ 64) :
    shrAndRoundUp value k = (value + 2 ^ k - 1) / 2 ^ k := by
  unfold shrAndRoundUp
  have hkpos : (0 : Nat) < 2 ^ k := Nat.pos_pow_of_pos _ (by omega)
  have hk64 : (2 : Nat) ^ k < 2 ^ 64 := Nat.pow_lt_pow_right (by omega) hk
  have h1 : (1 <<< k) % 2 ^ 64 = 2 ^ k := by
    rw [Nat.shiftLeft_eq, one_mul]
    exact Nat.mod_eq_of_lt hk64
  rw [h1]
  have h2 : (value + 2 ^ k + (2 ^ 64 - 1)) % 2 ^ 64 = value + 2 ^ k - 1 := by
    have heq : value + 2 ^ k + (2 ^ 64 - 1) = (value + 2 ^ k - 1) + 2 ^ 64 := by omega
    rw [heq, Nat.add_mod_right]
    exact Nat.mod_eq_of_lt (by omega)
  rw [h2, Nat.shiftRight_eq_div_pow]

/-- The rounded-up shift is the ceiling of the division by the page size. -/
theorem ceil_div_galois (bytes k m : Nat) (hk : 0 < (2 : Nat) ^ k) :
    bytes ≤ m * 2 ^ k ↔ (bytes + 2 ^ k - 1) / 2 ^ k ≤ m := by
  rw [Nat.div_le_iff_le_mul_add_pred hk]
  constructor
  · intro h
    calc bytes + 2 ^ k - 1 ≤ m * 2 ^ k + 2 ^ k - 1 := by omega
      _ ≤ 2 ^ k * m + (2 ^ k - 1) := by
        rw [mul_comm]
        omega
  · intro h
    have : bytes ≤ 2 ^ k * m + (2 ^ k - 1) - (2 ^ k - 1) := by omega
    rw [mul_comm] at this
    omega

/-- Claim C6: reserveAllocationSpace computes each section page count as the
ceiling of bytes / page size, with the code bytes inflated by exactly 32
before rounding when Windows SEH is in use; it reserves and commits
codePages + roPages + rwPages contiguous pages, and lays the code, read-only
and read-write section bases out consecutively from the image base, each at
the page boundary following the previous section. -/
theorem reserveAllocationSpace_spec (useWindowsSEH : Bool)
    (k imageBase cb rob rwb : Nat) (hk : k < 64)
    (hcb : cb + 32 + 2 ^ k ≤ 2 ^ 64) (hrob : rob + 2 ^ k ≤ 2 ^ 64)
    (hrwb : rwb + 2 ^ k ≤ 2 ^ 64)
    (htotal : ((if useWindowsSEH then cb + 32 else cb) + 2 ^ k - 1) / 2 ^ k
        + (rob + 2 ^ k - 1) / 2 ^ k + (rwb + 2 ^ k - 1) / 2 ^ k < 2 ^ 64)
    (hbase : imageBase + (((if useWindowsSEH then cb + 32 else cb) + 2 ^ k - 1) / 2 ^ k)
          * 2 ^ k + ((rob + 2 ^ k - 1) / 2 ^ k) * 2 ^ k < 2 ^ 64) :
    (reserveAllocationSpace useWindowsSEH k imageBase cb rob rwb).codeSection.numPages
        = ((if useWindowsSEH then cb + 32 else cb) + 2 ^ k - 1) / 2 ^ k
    ∧ (reserveAllocationSpace useWindowsSEH k imageBase cb rob rwb).readOnlySection.numPages
        = (rob + 2 ^ k - 1) / 2 ^ k
    ∧ (reserveAllocationSpace useWindowsSEH k imageBase cb rob rwb).readWriteSection.numPages
        = (rwb + 2 ^ k - 1) / 2 ^ k
    ∧ (∀ m, (if useWindowsSEH then cb + 32 else cb) ≤ m * 2 ^ k
        ↔ (reserveAllocationSpace useWindowsSEH k imageBase cb rob rwb).codeSection.numPages ≤ m)
    ∧ (∀ m, rob ≤ m * 2 ^ k
        ↔ (reserveAllocationSpace useWindowsSEH k imageBase cb rob rwb).readOnlySection.numPages ≤ m)
    ∧ (∀ m, rwb ≤ m * 2 ^ k
        ↔ (reserveAllocationSpace useWindowsSEH k imageBase cb rob rwb).readWriteSection.numPages ≤ m)
    ∧ (reserveAllocationSpace useWindowsSEH k imageBase cb rob rwb).numAllocatedImagePages
        = (reserveAllocationSpace useWindowsSEH k imageBase cb rob rwb).codeSection.numPages
          + (reserveAllocationSpace useWindowsSEH k imageBase cb rob rwb).readOnlySection.numPages
          + (reserveAllocationSpace useWindowsSEH k imageBase cb rob rwb).readWriteSection.numPages
    ∧ ((reserveAllocationSpace useWindowsSEH k imageBase cb rob rwb).numAllocatedImagePages ≠ 0 →
        (reserveAllocationSpace useWindowsSEH k imageBase cb rob rwb).codeSection.baseAddress
            = imageBase
        ∧ (reserveAllocationSpace useWindowsSEH k imageBase cb rob rwb).readOnlySection.baseAddress
            = (reserveAllocationSpace useWindowsSEH k imageBase cb rob rwb).codeSection.baseAddress
              + (reserveAllocationSpace useWindowsSEH k imageBase cb rob rwb).codeSection.numPages * 2 ^ k
        ∧ (reserveAllocationSpace useWindowsSEH k imageBase cb rob rwb).readWriteSection.baseAddress
            = (reserveAllocationSpace useWindowsSEH k imageBase cb rob rwb).readOnlySection.baseAddress
              + (reserveAllocationSpace useWindowsSEH k imageBase cb rob rwb).readOnlySection.numPages * 2 ^ k) := by
  have hkpos : (0 : Nat) < 2 ^ k := Nat.pos_pow_of_pos _ (by omega)
  have hcb2 : (if useWindowsSEH then (cb + 32) % 2 ^ 64 else cb)
      = (if useWindowsSEH then cb + 32 else cb) := by
    split <;> first | rfl | exact Nat.mod_eq_of_lt (by omega)
  have hc1 : shrAndRoundUp (if useWindowsSEH then (cb + 32) % 2 ^ 64 else cb) k
      = ((if useWindowsSEH then cb + 32 else cb) + 2 ^ k - 1) / 2 ^ k := by
    rw [hcb2]
    exact shrAndRoundUp_eq _ k hk (by split <;> omega)
  have hc2 : shrAndRoundUp rob k = (rob + 2 ^ k - 1) / 2 ^ k :=
    shrAndRoundUp_eq _ k hk (by omega)
  have hc3 : shrAndRoundUp rwb k = (rwb + 2 ^ k - 1) / 2 ^ k :=
    shrAndRoundUp_eq _ k hk (by omega)
  simp only [reserveAllocationSpace, hc1, hc2, hc3]
  rw [Nat.mod_eq_of_lt htotal]
  set cp := ((if useWindowsSEH then cb + 32 else cb) + 2 ^ k - 1) / 2 ^ k with hcp
  set rp := (rob + 2 ^ k - 1) / 2 ^ k with hrp
  set wp := (rwb + 2 ^ k - 1) / 2 ^ k with hwp
  have hshift1 : (cp <<< k) % 2 ^ 64 = cp * 2 ^ k := by
    rw [Nat.shiftLeft_eq]
    exact Nat.mod_eq_of_lt (by omega)
  have hshift2 : (rp <<< k) % 2 ^ 64 = rp * 2 ^ k := by
    rw [Nat.shiftLeft_eq]
    exact Nat.mod_eq_of_lt (by omega)
  have hro : (imageBase + (cp <<< k) % 2 ^ 64) % 2 ^ 64 = imageBase + cp * 2 ^ k := by
    rw [hshift1]
    exact Nat.mod_eq_of_lt (by omega)
  have hrw : ((imageBase + cp * 2 ^ k) + (rp <<< k) % 2 ^ 64) % 2 ^ 64
      = imageBase + cp * 2 ^ k + rp * 2 ^ k := by
    rw [hshift2]
    exact Nat.mod_eq_of_lt (by omega)
  split
  · refine ⟨rfl, rfl, rfl, fun m => ceil_div_galois _ k m hkpos,
      fun m => ceil_div_galois _ k m hkpos, fun m => ceil_div_galois _ k m hkpos,
      rfl, fun _ => ⟨rfl, ?_, ?_⟩⟩
    · exact hro.symm ▸ rfl
    · simp only [hro, hrw]
  · rename_i htz
    exact ⟨rfl, rfl, rfl, fun m => ceil_div_galois _ k m hkpos,
      fun m => ceil_div_galois _ k m hkpos, fun m => ceil_div_galois _ k m hkpos,
      rfl, fun hcon => absurd hcon htz⟩

/-- Witness for claim C6: a reservation of 100 code bytes, 10 read-only bytes
and 8 read-write bytes with 4096-byte pages and no SEH padding. -/
theorem reserveAllocationSpace_spec_witness :
    (reserveAllocationSpace false 12 262144 100 10 8).codeSection.numPages
      = ((if false then 100 + 32 else 100) + 2 ^ 12 - 1) / 2 ^ 12 :=
  (reserveAllocationSpace_spec false 12 262144 100 10 8 (by omega) (by norm_num)
    (by norm_num) (by norm_num) (by norm_num) (by norm_num)).1

/-! ## LLVMJIT address-to-function lookup (LLVMJITLoad.cpp lines 444-453 and
564-580) -/

/-- JITFunction as used by the lookup: its loaded base address and its byte
length (LLVMJITPrivate.h, populated on lines 444-445). -/
structure JITFunction where
  baseAddress : Nat
  numBytes : Nat
deriving DecidableEq

/-- LoadedModule as used by the lookup: its image range and its
addressToFunctionMap, an ordered map modelled as a list of (key, function)
entries sorted strictly by key. Entries are inserted keyed by the function end
address (line 448). -/
structure LoadedModule where
  imageBaseAddress : Nat
  numImageBytes : Nat
  addressToFunctionMap : List (Nat × JITFunction)
deriving DecidableEq

/-- std::map::upper_bound on an ordered map: the first entry, in increasing
key order, whose key is strictly greater than the query. -/
def upperBound {α : Type} (m : List (Nat × α)) (address : Nat) : Option (Nat × α) :=
  m.find? (fun p => address < p.1)

/-- LLVMJIT::getJITFunctionByAddress (lines 564-580): upper_bound on the
global addressToModuleMap (keyed by image end, line 451), then upper_bound on
the addressToFunctionMap of that module (keyed by function end, line 448),
then the range test of lines 577-579. -/
def getJITFunctionByAddress (addressToModuleMap : List (Nat × LoadedModule))
    (address : Nat) : Option JITFunction :=
  match upperBound addressToModuleMap address with
  | none => none
  | some (_, jitModule) =>
    match upperBound jitModule.addressToFunctionMap address with
    | none => none
    | some (_, function) =>
      if function.baseAddress ≤ address
          ∧ address < function.baseAddress + function.numBytes then some function
      else none

/-- Keys of an ordered map are strictly increasing. -/
def SortedKeys {α : Type} (m : List (Nat × α)) : Prop :=
  m.Pairwise (fun p q => p.1 < q.1)

/-- Invariants the LoadedModule constructor establishes for one module: the
function map is sorted, every entry is keyed by its function end address
(line 448), every function is nonempty and lies inside the module image, and
functions do not overlap. -/
def ModuleWF (m : LoadedModule) : Prop :=
  SortedKeys m.addressToFunctionMap
  ∧ (∀ p ∈ m.addressToFunctionMap,
      p.1 = p.2.baseAddress + p.2.numBytes
      ∧ 0 < p.2.numBytes
      ∧ m.imageBaseAddress ≤ p.2.baseAddress
      ∧ p.2.baseAddress + p.2.numBytes ≤ m.imageBaseAddress + m.numImageBytes)
  ∧ m.addressToFunctionMap.Pairwise (fun p q =>
      p.2.baseAddress + p.2.numBytes ≤ q.2.baseAddress
      ∨ q.2.baseAddress + q.2.numBytes ≤ p.2.baseAddress)

/-- Invariants of the global addressToModuleMap: sorted, every entry keyed by
its image end address (lines 451-453), every module well formed, and module
images disjoint. -/
def GlobalWF (g : List (Nat × LoadedModule)) : Prop :=
  SortedKeys g
  ∧ (∀ p ∈ g, p.1 = p.2.imageBaseAddress + p.2.numImageBytes ∧ ModuleWF p.2)
  ∧ g.Pairwise (fun p q =>
      p.2.imageBaseAddress + p.2.numImageBytes ≤ q.2.imageBaseAddress
      ∨ q.2.imageBaseAddress + q.2.numImageBytes ≤ p.2.imageBaseAddress)

/-- upper_bound returns the entry with the least key above the query when
such an entry exists and every other key above the query is at least that
key. -/
theorem upperBound_eq {α : Type} (m : List (Nat × α)) (address k : Nat) (x : α)
    (hsort : SortedKeys m) (hmem : (k, x) ∈ m) (hgt : address < k)
    (hmin : ∀ p ∈ m, address < p.1 → k ≤ p.1) :
    upperBound m address = some (k, x) := by
  induction m with
  | nil => simp at hmem
  | cons p ps ih =>
    rw [SortedKeys, List.pairwise_cons] at hsort
    rcases List.mem_cons.mp hmem with heq | htail
    · rw [← heq]
      unfold upperBound
      rw [List.find?_cons, decide_eq_true hgt]
    · have hpk : p.1 < k := hsort.1 (k, x) htail
      have hple : ¬address < p.1 := by
        intro hcon
        have := hmin p (by simp) hcon
        omega
      unfold upperBound
      rw [List.find?_cons, decide_eq_false hple]
      exact ih hsort.2 htail (fun q hq hqgt => hmin q (by simp [hq]) hqgt)

/-- Whatever upper_bound returns is a member with key above the query. -/
theorem upperBound_sound {α : Type} (m : List (Nat × α)) (address k : Nat) (x : α)
    (h : upperBound m address = some (k, x)) : (k, x) ∈ m ∧ address < k := by
  refine ⟨List.mem_of_find?_eq_some h, ?_⟩
  have := List.find?_some h
  exact of_decide_eq_true this

/-- A pairwise property along a list holds between any two distinct members
when it is symmetric. -/
theorem pairwise_forall_of_symm {α : Type} {R : α → α → Prop}
    (hsym : ∀ a b, R a b → R b a) :
    ∀ (l : List α), l.Pairwise R → ∀ a ∈ l, ∀ b ∈ l, a ≠ b → R a b
  | [], _, a, ha, _, _, _ => absurd ha (by simp)
  | x :: xs, hpw, a, ha, b, hb, hne => by
    rw [List.pairwise_cons] at hpw
    rcases List.mem_cons.mp ha with rfl | ha2
    · rcases List.mem_cons.mp hb with rfl | hb2
      · exact absurd rfl hne
      · exact hpw.1 b hb2
    · rcases List.mem_cons.mp hb with rfl | hb2
      · exact hsym _ _ (hpw.1 a ha2)
      · exact pairwise_forall_of_symm hsym xs hpw.2 a ha2 b hb2 hne

/-- Claim C3: under the invariants the loader establishes, the lookup returns
the function whose range contains the query address, and none when no loaded
function covers the address (in particular at the one-past-the-end address of
a function when no other function covers that byte). -/
theorem getJITFunctionByAddress_spec (g : List (Nat × LoadedModule))
    (hwf : GlobalWF g) :
    (∀ (km : Nat) (m : LoadedModule) (kf : Nat) (f : JITFunction) (a : Nat),
      (km, m) ∈ g → (kf, f) ∈ m.addressToFunctionMap →
      f.baseAddress ≤ a → a < f.baseAddress + f.numBytes →
      getJITFunctionByAddress g a = some f)
    ∧ (∀ a : Nat,
      (∀ (km : Nat) (m : LoadedModule) (kf : Nat) (f : JITFunction),
        (km, m) ∈ g → (kf, f) ∈ m.addressToFunctionMap →
        ¬(f.baseAddress ≤ a ∧ a < f.baseAddress + f.numBytes)) →
      getJITFunctionByAddress g a = none) := by
  obtain ⟨hsort, hkeys, hdisj⟩ := hwf
  constructor
  · intro km m kf f a hmg hfm hba hab
    obtain ⟨hkm, hmwf⟩ := hkeys (km, m) hmg
    obtain ⟨hfsort, hfkeys, hfdisj⟩ := hmwf
    obtain ⟨hkf, hfpos, hflo, hfhi⟩ := hfkeys (kf, f) hfm
    simp only at hkm hkf hflo hfhi hfpos
    have hub1 : upperBound g a = some (km, m) := by
      apply upperBound_eq g a km m hsort hmg (by omega)
      intro p hp hap
      by_cases hpe : p = (km, m)
      · subst hpe
        exact le_rfl
      · have hrel := pairwise_forall_of_symm (fun x y h => h.symm) g hdisj
          p hp (km, m) hmg hpe
        obtain ⟨hpk, _⟩ := hkeys p hp
        simp only at hrel
        rcases hrel with h1 | h1
        · omega
        · omega
    have hub2 : upperBound m.addressToFunctionMap a = some (kf, f) := by
      apply upperBound_eq _ a kf f hfsort hfm (by omega)
      intro p hp hap
      by_cases hpe : p = (kf, f)
      · subst hpe
        exact le_rfl
      · have hrel := pairwise_forall_of_symm (fun x y h => h.symm)
          m.addressToFunctionMap hfdisj p hp (kf, f) hfm hpe
        obtain ⟨hpk, hppos, _, _⟩ := hfkeys p hp
        simp only at hrel
        rcases hrel with h1 | h1
        · omega
        · omega
    simp only [getJITFunctionByAddress, hub1, hub2]
    rw [if_pos ⟨hba, hab⟩]
  · intro a hnone
    unfold getJITFunctionByAddress
    cases hub1 : upperBound g a with
    | none => rfl
    | some p =>
      obtain ⟨k1, m1⟩ := p
      cases hub2 : upperBound m1.addressToFunctionMap a with
      | none => simp only [hub2]
      | some q =>
        obtain ⟨k2, f1⟩ := q
        obtain ⟨hm1, _⟩ := upperBound_sound g a k1 m1 hub1
        obtain ⟨hf1, _⟩ := upperBound_sound _ a k2 f1 hub2
        simp only [hub2]
        rw [if_neg (hnone k1 m1 k2 f1 hm1 hf1)]

/-- Witness for claim C3: one module at image range 1000 to 1100 holding one
50-byte function at 1000; an address inside the function resolves to it. -/
theorem getJITFunctionByAddress_spec_witness :
    getJITFunctionByAddress [(1100, ⟨1000, 100, [(1050, ⟨1000, 50⟩)]⟩)] 1025
      = some ⟨1000, 50⟩ :=
  (getJITFunctionByAddress_spec [(1100, ⟨1000, 100, [(1050, ⟨1000, 50⟩)]⟩)]
    (by constructor
        · exact List.pairwise_singleton _ _
        · constructor
          · intro p hp
            simp at hp
            subst hp
            refine ⟨rfl, List.pairwise_singleton _ _, ?_, ?_⟩
            · intro q hq
              simp at hq
              subst hq
              exact ⟨rfl, by decide, by decide, by decide⟩
            · exact List.pairwise_singleton _ _
          · exact List.pairwise_singleton _ _)).1
    1100 ⟨1000, 100, [(1050, ⟨1000, 50⟩)]⟩ 1050 ⟨1000, 50⟩ 1025
    (by simp) (by simp) (by decide) (by decide)

/-! ## Locking of the global addressToModuleMap (LLVMJITLoad.cpp lines 73-74,
451-453, 462-471, 564-580) -/

/-- Operations performed on the global addressToModuleMap. -/
inductive MapOp where
  | emplaceOp
  | eraseOp
  | upperBoundOp
deriving DecidableEq

/-- Events relevant to the mutex discipline around addressToModuleMap:
acquiring or releasing addressToModuleMapMutex, or touching the map. -/
inductive LoaderEvent where
  | acquireMutex
  | releaseMutex
  | mapAccess (op : MapOp)
deriving DecidableEq

/-- The events of LoadedModule::LoadedModule that concern the global map
(lines 451-453): the emplace into addressToModuleMap. No Lock on
addressToModuleMapMutex appears anywhere in the constructor body (lines
261-460), so the access is performed without acquiring the mutex. -/
def loadedModuleConstructorEvents : List LoaderEvent :=
  [.mapAccess .emplaceOp]

/-- The events of LoadedModule::~LoadedModule (lines 462-471): a Lock on
addressToModuleMapMutex is acquired (line 465), the erase runs under it
(lines 466-467), and the Lock is released when it leaves scope. -/
def loadedModuleDestructorEvents : List LoaderEvent :=
  [.acquireMutex, .mapAccess .eraseOp, .releaseMutex]

/-- The events of getJITFunctionByAddress that concern the global map (lines
566-572): a Lock on addressToModuleMapMutex is acquired (line 568), the
upper_bound runs under it (line 569), and the Lock is released at the end of
the block (line 572). -/
def getJITFunctionByAddressEvents : List LoaderEvent :=
  [.acquireMutex, .mapAccess .upperBoundOp, .releaseMutex]

/-- Every map access in the event list happens while the mutex is held, given
the current hold depth. -/
def accessesLocked : List LoaderEvent → Nat → Bool
  | [], _ => true
  | .acquireMutex :: rest, d => accessesLocked rest (d + 1)
  | .releaseMutex :: rest, d => accessesLocked rest (d - 1)
  | .mapAccess _ :: rest, d => decide (0 < d) && accessesLocked rest d

/-- Claim C9 against the code: the erase in the destructor and the
upper_bound in getJITFunctionByAddress run under addressToModuleMapMutex, but
the emplace at the end of the LoadedModule constructor does not — the
constructor takes no lock, contradicting the claim that all three operations
acquire the mutex. -/
theorem addressToModuleMap_lock_discipline :
    accessesLocked loadedModuleDestructorEvents 0 = true
    ∧ accessesLocked getJITFunctionByAddressEvents 0 = true
    ∧ accessesLocked loadedModuleConstructorEvents 0 = false := by decide
